import Mathlib

/-!
Shallow embedding of `advanced_music_generator.py` (the Sose project's
composition-and-synthesis engine) and proofs about its specification.

Conventions of the embedding:
* Python floats are modelled as exact rationals (`ℚ`).
* Transcendental numpy functions (`np.sin`, `np.exp`, `np.tanh`) and the
  irrational pitch ratios `2^(k/12)` are abstracted into an `AnalyticOracle`
  of rational-valued functions; every structural theorem is proved for all
  oracles.  The field `sin2pi x` stands for `sin (2*pi*x)`.
* PRNG draws (`random.random`, `random.choice`, `random.randint`,
  `random.uniform`) are modelled by explicit oracle streams.  `random.random`
  and `random.uniform` draws are mapped through `fractQ` so that the set of
  reachable values is exactly the ideal semantics `[0, 1)`; `choice`/`randint`
  draws use a modulus so that the set of reachable indices is exactly the real
  one.
* Python-level partiality (raised exceptions) is modelled with `Except Err`:
  `TypeError` for the duration check, `IndexError` for out-of-range indexing
  (`t[-1]` on an empty array), `ValueError` for numpy broadcast mismatches and
  empty-array reductions, and `loopBound` for non-termination of a `while`
  loop beyond its provable iteration bound.
-/

namespace Sose

/-- Errors a `generate_composition` call can raise. -/
inductive Err where
  | typeError : Err
  | indexError : Err
  | valueError : Err
  | loopBound : Err
  deriving DecidableEq, Repr

deriving instance DecidableEq for Except

/-- Fractional part, `q - ⌊q⌋ ∈ [0,1)`; used to model `random.random()`. -/
def fractQ (q : ℚ) : ℚ := q - ⌊q⌋

/-- Python `int(q)`: truncation toward zero. -/
def pyInt (q : ℚ) : ℤ := if 0 ≤ q then ⌊q⌋ else -⌊-q⌋

/-- Python `round(q)`: round half to even (banker's rounding). -/
def pyRound (q : ℚ) : ℤ :=
  if fractQ q < 1/2 then ⌊q⌋
  else if 1/2 < fractQ q then ⌊q⌋ + 1
  else if 2 ∣ ⌊q⌋ then ⌊q⌋ else ⌊q⌋ + 1

/-- `random.choice(l)` with draw `n`; the index `n % l.length` ranges over
exactly the valid indices of a nonempty `l`. -/
def pyChoice (l : List α) (d : α) (n : ℕ) : α := l.getD (n % l.length) d

/-- `random.randint(a, b)` (inclusive bounds) with draw `n`. -/
def pyRandint (a b : ℕ) (n : ℕ) : ℕ := a + n % (b + 1 - a)

/-- `random.uniform(a, b)` with draw `u`: `a + fract(u) * (b - a) ∈ [a, b)`. -/
def pyUniform (a b : ℚ) (u : ℚ) : ℚ := a + fractQ u * (b - a)

/-- `np.linspace(a, b, n)` (endpoint included; `n = 1` gives `[a]`). -/
def linspaceQ (a b : ℚ) (n : ℕ) : List ℚ :=
  if n ≤ 1 then List.replicate n a
  else (List.range n).map (fun i => a + (b - a) * (Nat.cast i : ℚ) / ((n : ℚ) - 1))

/-- Python slice `l[:stop]` with a possibly negative `stop`. -/
def pySliceTo (l : List α) (stop : ℤ) : List α :=
  if 0 ≤ stop then l.take stop.toNat else l.take (l.length - (-stop).toNat)

/-- Python `l[-2:]`: the last two elements (or the whole list if shorter). -/
def pyLastTwo (l : List α) : List α := l.drop (l.length - 2)

/-- Python `l * n` (list repetition; `n ≤ 0` gives `[]`). -/
def pyListMul (l : List α) (n : ℤ) : List α := (List.replicate n.toNat l).flatten

/-- numpy slice assignment `dst[start:stop] = src`; raises a broadcast
`ValueError` when the slice shape differs from `len src` (numpy does not
pad).  The slice length is `min stop (len dst) - start`, truncated at zero
(Lean's `Nat` subtraction matches Python's clamping for non-negative
indices). -/
def npSetRange (dst : List ℚ) (start stop : ℕ) (src : List ℚ) : Except Err (List ℚ) :=
  if min stop dst.length - start = src.length then
    .ok (dst.take start ++ src ++ dst.drop (start + src.length))
  else .error .valueError

/-- `np.linspace(a, b, num)` with an integer `num`: numpy raises a
`ValueError` for a negative sample count. -/
def npLinspaceZ (a b : ℚ) (num : ℤ) : Except Err (List ℚ) :=
  if num < 0 then .error .valueError else .ok (linspaceQ a b num.toNat)

/-- numpy `dst[start:end] += src` where `end = min (start + len src) (len dst)`:
element-wise addition of `src` into `dst` beginning at `start`, extra source
entries truncated at the end of `dst`.  Always length preserving. -/
def addInto (dst : List ℚ) (start : ℕ) (src : List ℚ) : List ℚ :=
  dst.mapIdx (fun i v => if start ≤ i then v + src.getD (i - start) 0 else v)

/-- numpy element-wise `+` of two equal-length vectors. -/
def zipAdd (a b : List ℚ) : List ℚ := List.zipWith (· + ·) a b

/-- numpy element-wise `*` of two equal-length vectors. -/
def zipMul (a b : List ℚ) : List ℚ := List.zipWith (· * ·) a b

/-- `np.max` of a vector: raises `ValueError` on a zero-size array. -/
def npMax : List ℚ → Except Err ℚ
  | [] => .error .valueError
  | x :: t => .ok (t.foldl max x)

/-- Association-list lookup with a default value (`dict.get(k, d)`, and the
`if k not in D: k = fallback` idiom when `d = D[fallback]`). -/
def assocD (tbl : List (String × α)) (key : String) (d : α) : α :=
  match tbl with
  | [] => d
  | (k, v) :: t => if k = key then v else assocD t key d

/-! ### RhythmGenerator (`generate_rhythm_pattern`) -/

/-- `class TimeSignature(Enum)` of the source. -/
inductive TimeSignature where
  | fourFour
  | threeFour
  | sixEight
  | fiveFour
  | sevenEight
  deriving DecidableEq, Repr

/-- `TimeSignature.value`: `(beats_per_measure, note_value)`. -/
def TimeSignature.value : TimeSignature → ℕ × ℕ
  | .fourFour => (4, 4)
  | .threeFour => (3, 4)
  | .sixEight => (6, 8)
  | .fiveFour => (5, 4)
  | .sevenEight => (7, 8)

/-- PRNG draws consumed by one `generate_rhythm_pattern` call: per loop
iteration, a `random.choice` index into the subdivision pool and a
`random.random()` coin for the syncopation test. -/
structure RhythmDraws where
  sub : ℕ → ℕ
  sync : ℕ → ℚ

/-- The `while current_time < beats_per_measure` loop of
`generate_rhythm_pattern`.  `fuel` bounds the iterations; the returned
`.error .loopBound` is proved unreachable for `fuel = 32 * beats`. -/
def rhythmGo (beats : ℕ) (complexity : ℚ) (dr : RhythmDraws) :
    ℕ → ℕ → ℚ → List ℚ → Except Err (List ℚ)
  | 0, _, current, acc =>
      if current < (beats : ℚ) then .error .loopBound else .ok acc.reverse
  | fuel + 1, i, current, acc =>
      if current < (beats : ℚ) then
        let pool : List ℚ :=
          if complexity < 3/10 then [1, 1/2]
          else if complexity < 7/10 then [1, 1/2, 1/4]
          else [1, 1/2, 1/4, 1/8]
        let s0 := pyChoice pool 1 (dr.sub i)
        let s := if fractQ (dr.sync i) < complexity * (3/10) then s0 * (3/4) else s0
        rhythmGo beats complexity dr fuel (i + 1) (current + s) (s :: acc)
      else .ok acc.reverse

/-- `RhythmGenerator.generate_rhythm_pattern(time_sig, complexity)`. -/
def generateRhythmPattern (timeSig : TimeSignature) (complexity : ℚ)
    (dr : RhythmDraws) : Except Err (List ℚ) :=
  rhythmGo timeSig.value.1 complexity dr (32 * timeSig.value.1) 0 0 []

/-! ### ChordProgressionGenerator (`generate_progression`)

`random.choice(base_progressions)` returns a reference to the inner template
list stored in the class-level `PROGRESSIONS` dict, and the subsequent
`extend`/`append` mutate it in place; the embedding therefore threads the
table as state and returns the updated table together with the result. -/

/-- The class-level `PROGRESSIONS` table in its pristine state. -/
def progressions0 : List (String × List (List ℤ)) :=
  [("classical", [[0, 3, 4, 0], [0, 5, 3, 4, 0], [0, 4, 5, 0], [0, 2, 3, 4, 0]]),
   ("jazz", [[0, 5, 1, 4], [0, 0, 3, 3, 5, 5, 1, 4], [0, 6, 1, 4], [0, 2, 5, 1, 4, 0]]),
   ("pop", [[0, 5, 3, 4], [5, 3, 0, 4], [0, 4, 5, 3], [3, 4, 0, 5]]),
   ("folk", [[0, 4, 0, 4], [0, 3, 4, 0], [0, 5, 4, 0]])]

/-- `key in dict` for the association-list model of a Python dict. -/
def hasKey (tbl : List (String × α)) (k : String) : Bool :=
  tbl.any (fun p => p.1 == k)

/-- Replace the value stored under `k`. -/
def setAssoc (tbl : List (String × α)) (k : String) (v : α) : List (String × α) :=
  tbl.map (fun p => if p.1 = k then (p.1, v) else p)

/-- PRNG draws for one `generate_progression` call: the template
`random.choice` index, and per loop iteration a coin and an index into the
common-chord list. -/
structure ProgDraws where
  tmpl : ℕ
  coin : ℕ → ℚ
  app : ℕ → ℕ

/-- The `while len(progression) < length` loop.  The template list is mutated
in place in Python; here it grows functionally and is written back by the
caller.  Fuel bounds the iterations (each iteration grows a nonempty list by
at least one element). -/
def progLoop (length : ℤ) (dr : ProgDraws) : ℕ → ℕ → List ℤ → Except Err (List ℤ)
  | 0, _, p => if (p.length : ℤ) < length then .error .loopBound else .ok p
  | fuel + 1, i, p =>
      if (p.length : ℤ) < length then
        let p' := if fractQ (dr.coin i) < 7/10 then p ++ pyLastTwo p
          else p ++ [pyChoice [0, 3, 4, 5] 0 (dr.app i)]
        progLoop length dr fuel (i + 1) p'
      else .ok p

/-- `ChordProgressionGenerator.generate_progression(style, length)` acting on
an explicit table state; returns the truncated progression and the updated
table (`random.choice` on an empty template set would raise `IndexError`). -/
def generateProgression (style : String) (length : ℤ) (dr : ProgDraws)
    (tbl : List (String × List (List ℤ))) :
    Except Err (List ℤ × List (String × List (List ℤ))) := do
  let key := if hasKey tbl style then style else "classical"
  let base := assocD tbl key []
  if base = [] then .error .indexError
  else
    let idx := dr.tmpl % base.length
    let chosen := base.getD idx []
    let prog ← progLoop length dr length.toNat 0 chosen
    .ok (pySliceTo prog length, setAssoc tbl key (base.set idx prog))

/-! ### MelodyGenerator (`generate_melody`) -/

/-- `class MusicStyle(Enum)` in source declaration order. -/
inductive MusicStyle where
  | classical
  | jazz
  | electronic
  | ambient
  | rock
  | folk
  | world
  | experimental
  deriving DecidableEq, Repr

/-- `list(MusicStyle)` in declaration order, as sampled by `random.choice`. -/
def musicStyleList : List MusicStyle :=
  [.classical, .jazz, .electronic, .ambient, .rock, .folk, .world, .experimental]

/-- `@dataclass MusicalNote`. -/
structure MusicalNote where
  frequency : ℚ
  duration : ℚ
  velocity : ℚ
  start_time : ℚ
  deriving DecidableEq, Repr

/-- Python list indexing `l[n]` for a non-negative index: `IndexError` when
out of range. -/
def pyGet (l : List α) (n : ℕ) : Except Err α :=
  match l[n]? with
  | some x => .ok x
  | none => .error .indexError

/-- `step_probability` from the style table of `generate_melody`. -/
def styleStepProb : MusicStyle → ℚ
  | .classical => 7/10
  | .jazz => 1/2
  | .electronic => 2/5
  | _ => 3/5

/-- `leap_max` from the style table of `generate_melody`. -/
def styleLeapMax : MusicStyle → ℕ
  | .classical => 5
  | .jazz => 8
  | .electronic => 12
  | _ => 6

/-- `max(0, min(len(scale_freqs) - 1, i))`: the index clamp of
`generate_melody` (never a wrap-around). -/
def clampIdx (n : ℕ) (z : ℤ) : ℕ := (max 0 (min ((n : ℤ) - 1) z)).toNat

/-- PRNG draws for one `generate_melody` call: the initial `randint`, and per
rhythm entry the step/leap coin, a direction `choice([-1, 1])`, a leap-size
`randint`, and a velocity `uniform(0.5, 1.0)`. -/
structure MelodyDraws where
  init : ℕ
  stepCoin : ℕ → ℚ
  dir : ℕ → ℕ
  leap : ℕ → ℕ
  vel : ℕ → ℚ

/-- The `for duration in rhythm_pattern` loop of `generate_melody`. -/
def melodyGo (freqs : List ℚ) (stepP : ℚ) (leapMax : ℕ) (dr : MelodyDraws) :
    List ℚ → ℕ → ℕ → ℚ → Except Err (List MusicalNote)
  | [], _, _, _ => .ok []
  | d :: rest, k, idx, time => do
      let idx' :=
        if fractQ (dr.stepCoin k) < stepP then
          clampIdx freqs.length ((idx : ℤ) + pyChoice [-1, 1] 0 (dr.dir k))
        else
          clampIdx freqs.length
            ((idx : ℤ) + pyChoice [-1, 1] 0 (dr.dir k) *
              (pyRandint 2 leapMax (dr.leap k) : ℤ))
      let f ← pyGet freqs idx'
      let v := pyUniform (1/2) 1 (dr.vel k)
      let rest' ← melodyGo freqs stepP leapMax dr rest (k + 1) idx' (time + d)
      .ok (⟨f, d, v, time⟩ :: rest')

/-- `AdvancedMusicGenerator.generate_melody(scale_freqs, rhythm_pattern,
style)`. -/
def generateMelody (scaleFreqs : List ℚ) (rhythmPattern : List ℚ)
    (style : MusicStyle) (dr : MelodyDraws) : Except Err (List MusicalNote) :=
  let freqs := if scaleFreqs = [] then [440] else scaleFreqs
  let idx0 := pyRandint 0 (max 0 (freqs.length / 2)) dr.init
  melodyGo freqs (styleStepProb style) (styleLeapMax style) dr rhythmPattern 0 idx0 0

/-! ### InstrumentSimulator envelopes -/

/-- Abstract analytic oracle standing for numpy's transcendental functions
(irrational over `ℚ`): `sin2pi x` models `np.sin(2 * np.pi * x)`, `expQ x`
models `np.exp x`, `tanhQ x` models `np.tanh x`, and `twelfth k` models the
pitch ratio `2 ** (k / 12)`.  Structural theorems are proved for every
oracle. -/
structure AnalyticOracle where
  sin2pi : ℚ → ℚ
  expQ : ℚ → ℚ
  tanhQ : ℚ → ℚ
  twelfth : ℕ → ℚ

/-- A concrete oracle (every transcendental value `0`, every pitch ratio
`0`) used for closed evaluations. -/
def zeroOracle : AnalyticOracle := ⟨fun _ => 0, fun _ => 0, fun _ => 0, fun _ => 0⟩

/-- The `# Attack` block of `piano_envelope`:
`envelope[:attack_samples] = np.linspace(0, 1, attack_samples)` when
`attack_samples > 0`. -/
def pianoAttackStage (attack : ℚ) (n : ℕ) (envelope : List ℚ) :
    Except Err (List ℚ) :=
  let attackSamples := pyInt (attack * n)
  if 0 < attackSamples then do
    let src ← npLinspaceZ 0 1 attackSamples
    npSetRange envelope 0 attackSamples.toNat src
  else pure envelope

/-- The `# Decay` block of `piano_envelope`. -/
def pianoDecayStage (attack decay sustain : ℚ) (n : ℕ) (envelope : List ℚ) :
    Except Err (List ℚ) :=
  let attackSamples := pyInt (attack * n)
  let decaySamples := pyInt (decay * n)
  if 0 < decaySamples then do
    let decayEnd := min (attackSamples + decaySamples) (n : ℤ)
    let src ← npLinspaceZ 1 sustain (decayEnd - attackSamples)
    npSetRange envelope attackSamples.toNat decayEnd.toNat src
  else pure envelope

/-- The `# Release` block of `piano_envelope`:
`envelope[release_start:] = np.linspace(sustain, 0, len(t) - release_start)`. -/
def pianoReleaseStage (sustain release : ℚ) (n : ℕ) (envelope : List ℚ) :
    Except Err (List ℚ) := do
  let releaseStart := pyInt ((1 - release) * n)
  let src ← npLinspaceZ sustain 0 ((n : ℤ) - releaseStart)
  npSetRange envelope releaseStart.toNat n src

/-- `InstrumentSimulator.piano_envelope(t, attack, decay, sustain, release)`.
`total_time = t[-1]` raises `IndexError` on an empty time vector (the value
is never used afterwards); the envelope starts as `np.ones_like(t)` and the
three slice assignments are applied in order. -/
def pianoEnvelope (t : List ℚ) (attack decay sustain release : ℚ) :
    Except Err (List ℚ) := do
  if t.getLast? = none then .error .indexError
  else
    let envelope ← pianoAttackStage attack t.length
      (List.replicate t.length (1 : ℚ))
    let envelope ← pianoDecayStage attack decay sustain t.length envelope
    pianoReleaseStage sustain release t.length envelope

/-- `InstrumentSimulator.string_envelope(t)`. -/
def stringEnvelope (A : AnalyticOracle) (t : List ℚ) : List ℚ :=
  t.map (fun ti =>
    A.expQ (-((ti - 1/10) ^ 2) / (1/100)) * A.expQ (-ti * (1/10)) *
      (1 + 5/100 * A.sin2pi (5 * ti)))

/-- `InstrumentSimulator.brass_envelope(t)`. -/
def brassEnvelope (A : AnalyticOracle) (t : List ℚ) : List ℚ :=
  t.map (fun ti =>
    (1 - A.expQ (-ti * 20)) * A.expQ (-ti * (2/10)) * (1 + 1/10 * A.sin2pi (3 * ti)))

/-- `InstrumentSimulator.synthesizer_envelope(t, style)`. -/
def synthesizerEnvelope (A : AnalyticOracle) (style : String) (t : List ℚ) : List ℚ :=
  if style = "pad" then t.map (fun ti => 1 - A.expQ (-ti * 2))
  else if style = "lead" then
    t.map (fun ti => (1 - A.expQ (-ti * 10)) * A.expQ (-ti * 1))
  else if style = "bass" then
    t.map (fun ti => A.expQ (-ti * 3) * (1 - A.expQ (-ti * 50)))
  else List.replicate t.length 1

/-! ### EffectsProcessor (`add_effects`) -/

/-- The `effects` dict of `add_effects`: each key optional, amounts rational. -/
structure Effects where
  reverb : Option ℚ
  chorus : Option ℚ
  distortion : Option ℚ
  deriving DecidableEq, Repr

/-- `{}`: the empty effects map. -/
def emptyEffects : Effects := ⟨none, none, none⟩

/-- The `# Reverb` block of `add_effects`: a 50 ms single-tap delay added to
the signal when the amount is present and positive and the buffer is longer
than the delay. -/
def reverbStage (sr : ℕ) (effects : Effects) (processed : List ℚ) :
    Except Err (List ℚ) :=
  match effects.reverb with
  | some amount =>
      if 0 < amount then
        let delaySamples := (pyInt ((5/100) * sr)).toNat
        if delaySamples < processed.length then do
          let reverbArr := List.replicate processed.length (0 : ℚ)
          let src := (pySliceTo processed (-(delaySamples : ℤ))).map (· * amount)
          let reverbArr ← npSetRange reverbArr delaySamples reverbArr.length src
          pure (zipAdd processed reverbArr)
        else pure processed
      else pure processed
  | none => pure processed

/-- The `# Chorus` block of `add_effects`: a 20 ms single-tap delay whose
delayed tap is amplitude-modulated at 1.5 Hz before being added. -/
def chorusStage (sr : ℕ) (A : AnalyticOracle) (effects : Effects)
    (processed : List ℚ) : Except Err (List ℚ) :=
  match effects.chorus with
  | some amount =>
      if 0 < amount then
        let delaySamples := (pyInt ((2/100) * sr)).toNat
        if delaySamples < processed.length then do
          let chorusArr := List.replicate processed.length (0 : ℚ)
          let src := (pySliceTo processed (-(delaySamples : ℤ))).map (· * amount)
          let chorusArr ← npSetRange chorusArr delaySamples chorusArr.length src
          let t := linspaceQ 0 ((processed.length : ℚ) / sr) processed.length
          let pitchMod := t.map (fun ti => 1 + 1/100 * A.sin2pi ((3/2) * ti))
          pure (zipAdd processed (zipMul chorusArr (pitchMod.take chorusArr.length)))
        else pure processed
      else pure processed
  | none => pure processed

/-- The `# Distortion` block of `add_effects`: sample-wise soft clipping. -/
def distortionStage (A : AnalyticOracle) (effects : Effects)
    (processed : List ℚ) : List ℚ :=
  match effects.distortion with
  | some drive =>
      if 0 < drive then processed.map (fun x => A.tanhQ (x * (1 + drive * 5)) / (1 + drive))
      else processed
  | none => processed

/-- `AdvancedMusicGenerator.add_effects(audio, effects)`: reverb, then
chorus, then distortion, on a copy of the input buffer. -/
def addEffects (sr : ℕ) (A : AnalyticOracle) (audio : List ℚ)
    (effects : Effects) : Except Err (List ℚ) := do
  let processed := audio
  let processed ← reverbStage sr effects processed
  let processed ← chorusStage sr A effects processed
  pure (distortionStage A effects processed)

/-! ### ScaleGenerator, chords and additive synthesis -/

/-- `ScaleGenerator.SCALES`. -/
def SCALES : List (String × List ℕ) :=
  [("major", [0, 2, 4, 5, 7, 9, 11]),
   ("minor", [0, 2, 3, 5, 7, 8, 10]),
   ("dorian", [0, 2, 3, 5, 7, 9, 10]),
   ("phrygian", [0, 1, 3, 5, 7, 8, 10]),
   ("lydian", [0, 2, 4, 6, 7, 9, 11]),
   ("mixolydian", [0, 2, 4, 5, 7, 9, 10]),
   ("locrian", [0, 1, 3, 5, 6, 8, 10]),
   ("pentatonic", [0, 2, 4, 7, 9]),
   ("blues", [0, 3, 5, 6, 7, 10]),
   ("chromatic", [0, 1, 2, 3, 4, 5, 6, 7, 8, 9, 10, 11]),
   ("whole_tone", [0, 2, 4, 6, 8, 10]),
   ("diminished", [0, 2, 3, 5, 6, 8, 9, 11])]

/-- `ScaleGenerator.get_scale_frequencies(root_freq, scale_name, octaves)`:
unknown names fall back to `"major"`; the frequency
`root_freq * 2 ** (octave + interval / 12)` is modelled as
`rootFreq * A.twelfth (12 * octave + interval)`. -/
def getScaleFrequencies (A : AnalyticOracle) (rootFreq : ℚ) (scaleName : String)
    (octaves : ℕ) : List ℚ :=
  let name := if hasKey SCALES scaleName then scaleName else "major"
  let intervals := assocD SCALES name []
  ((List.range octaves).map (fun o =>
    intervals.map (fun i => rootFreq * A.twelfth (12 * o + i)))).flatten

/-- The `chord_intervals` table of `create_chord`. -/
def chordIntervalsTable : List (String × List ℕ) :=
  [("major", [0, 4, 7]), ("minor", [0, 3, 7]), ("diminished", [0, 3, 6]),
   ("augmented", [0, 4, 8]), ("major7", [0, 4, 7, 11]), ("minor7", [0, 3, 7, 10]),
   ("dominant7", [0, 4, 7, 10]), ("sus2", [0, 2, 7]), ("sus4", [0, 5, 7]),
   ("add9", [0, 4, 7, 14])]

/-- The inversion loop of `create_chord`: double the lowest note and rotate
it to the end, `inversion mod len` times. -/
def invertChord : ℕ → List ℚ → List ℚ
  | 0, freqs => freqs
  | k + 1, freqs =>
      match freqs with
      | [] => []
      | f :: rest => invertChord k (rest ++ [f * 2])

/-- `AdvancedMusicGenerator.create_chord(root_freq, chord_type, inversion)`. -/
def createChord (A : AnalyticOracle) (rootFreq : ℚ) (chordType : String)
    (inversion : ℕ) : List ℚ :=
  let intervals := assocD chordIntervalsTable chordType
    (assocD chordIntervalsTable "major" [])
  let frequencies := intervals.map (fun i => rootFreq * A.twelfth i)
  invertChord (inversion % frequencies.length) frequencies

/-- `AdvancedMusicGenerator.generate_harmonic_series(fundamental,
num_harmonics, harmonic_weights)`. -/
def generateHarmonicSeries (fundamental : ℚ) (numHarmonics : ℕ)
    (harmonicWeights : Option (List ℚ)) : List ℚ × List ℚ :=
  let weights := match harmonicWeights with
    | none => (List.range numHarmonics).map (fun i => 1 / ((Nat.cast i : ℚ) + 1))
    | some w => w
  ((List.range numHarmonics).map (fun i => fundamental * ((Nat.cast i : ℚ) + 1)),
   weights.take numHarmonics)

/-- The harmonic summation loop of `synthesize_note`: per harmonic an
independent detune `uniform(-0.02, 0.02)` and a sine partial added into the
accumulating buffer. -/
def sumHarmonics (A : AnalyticOracle) (detune : ℕ → ℚ) (t : List ℚ) :
    List (ℚ × ℚ) → ℕ → List ℚ → List ℚ
  | [], _, audio => audio
  | (freq, weight) :: rest, j, audio =>
      let d := pyUniform (-(2/100)) (2/100) (detune j)
      let actualFreq := freq * (1 + d)
      let wave := t.map (fun ti => weight * A.sin2pi (actualFreq * ti))
      sumHarmonics A detune t rest (j + 1) (zipAdd audio wave)

/-- `AdvancedMusicGenerator.synthesize_note(note, instrument_type)`. -/
def synthesizeNote (sr : ℕ) (A : AnalyticOracle) (detune : ℕ → ℚ)
    (note : MusicalNote) (instrumentType : String) : Except Err (List ℚ) := do
  let durationSamples := (pyInt (note.duration * sr)).toNat
  let t := linspaceQ 0 note.duration durationSamples
  let hw :=
    if instrumentType = "piano" then
      generateHarmonicSeries note.frequency 6
        (some [1, 1/2, 3/10, 2/10, 1/10, 5/100])
    else if instrumentType = "strings" then
      generateHarmonicSeries note.frequency 8
        (some [1, 7/10, 1/2, 3/10, 2/10, 15/100, 1/10, 5/100])
    else if instrumentType = "brass" then
      generateHarmonicSeries note.frequency 10
        (some [1, 8/10, 6/10, 4/10, 3/10, 2/10, 15/100, 1/10, 8/100, 5/100])
    else if instrumentType = "synth_pad" then
      generateHarmonicSeries note.frequency 4 (some [1, 3/10, 2/10, 1/10])
    else if instrumentType = "synth_lead" then
      generateHarmonicSeries note.frequency 6
        (some [1, 4/10, 2/10, 1/10, 5/100, 2/100])
    else generateHarmonicSeries note.frequency 4 none
  let envelope ← (
    if instrumentType = "piano" then pianoEnvelope t (1/100) (3/10) (7/10) (1/2)
    else if instrumentType = "strings" then pure (stringEnvelope A t)
    else if instrumentType = "brass" then pure (brassEnvelope A t)
    else if instrumentType = "synth_pad" then pure (synthesizerEnvelope A "pad" t)
    else if instrumentType = "synth_lead" then pure (synthesizerEnvelope A "lead" t)
    else pure (List.replicate t.length (1 : ℚ)))
  let audio := sumHarmonics A detune t (hw.1.zip hw.2) 0
    (List.replicate t.length (0 : ℚ))
  pure (zipMul audio (envelope.map (· * note.velocity)))

/-! ### CompositionAssembler (`generate_composition`) -/

/-- The `duration` argument as a Python value: numeric (`int`/`float`,
modelled exactly as `ℚ`) or a non-numeric object. -/
inductive DurArg where
  | num (q : ℚ)
  | nonNum (reprStr : String)
  deriving DecidableEq, Repr

/-- The `description` argument: `None`, a string, or a non-string object
carried by the string `str()` renders it to. -/
inductive DescArg where
  | noneDesc
  | strDesc (s : String)
  | otherDesc (s : String)
  deriving DecidableEq, Repr

/-- Python `str.strip()`: drop leading and trailing whitespace. -/
def pyStrip (s : String) : String :=
  ⟨((s.toList.dropWhile (fun c => c.isWhitespace)).reverse.dropWhile
    (fun c => c.isWhitespace)).reverse⟩

/-- Python `str.lower()`. -/
def pyLower (s : String) : String := ⟨s.toList.map Char.toLower⟩

/-- The description sanitisation of `generate_composition`: `None` and
blank/empty text become `"simple melody"`, non-strings are `str()`-ed. -/
def sanitizeDescription : DescArg → String
  | .noneDesc => "simple melody"
  | .strDesc s => if pyStrip s = "" then "simple melody" else s
  | .otherDesc s => if pyStrip s = "" then "simple melody" else s

/-- The two duration clamps: `duration <= 0 -> 1.0`, then
`duration > 600 -> 600`. -/
def clampDuration (q : ℚ) : ℚ :=
  if q ≤ 0 then 1 else if 600 < q then 600 else q

/-- Contiguous-subsequence test over character lists (the empty needle is
contained everywhere), used to model Python's `in` on strings. -/
def seqContains : List Char → List Char → Bool
  | needle, [] => needle.isEmpty
  | needle, h :: t => needle.isPrefixOf (h :: t) || seqContains needle t

/-- `word in description_lower` (Python substring containment). -/
def containsWord (hay word : String) : Bool := seqContains word.toList hay.toList

/-- `any(word in dl for word in ws)`. -/
def anyWord (hay : String) (ws : List String) : Bool :=
  ws.any (fun w => containsWord hay w)

/-- The style keyword table of `generate_composition` (used when no style is
supplied), falling back to a uniform choice over all styles. -/
def inferStyle (dl : String) (n : ℕ) : MusicStyle :=
  if anyWord dl ["classical", "orchestra", "symphony"] then .classical
  else if anyWord dl ["jazz", "swing", "bebop"] then .jazz
  else if anyWord dl ["electronic", "synth", "edm"] then .electronic
  else if anyWord dl ["ambient", "atmospheric", "drone"] then .ambient
  else if anyWord dl ["rock", "metal", "punk"] then .rock
  else if anyWord dl ["folk", "acoustic", "country"] then .folk
  else pyChoice musicStyleList .classical n

/-- The scale keyword table of `generate_composition`. -/
def inferScaleName (dl : String) (n : ℕ) : String :=
  if anyWord dl ["bright", "happy", "major"] then "major"
  else if anyWord dl ["sad", "dark", "minor"] then "minor"
  else if anyWord dl ["modal", "dorian"] then "dorian"
  else if anyWord dl ["blues", "bluesy"] then "blues"
  else if anyWord dl ["exotic", "eastern"] then
    pyChoice ["phrygian", "locrian", "whole_tone"] "major" n
  else pyChoice ["major", "minor", "dorian", "mixolydian"] "major" n

/-- The tempo keyword table (the tempo is computed but never used by the
rest of `generate_composition`). -/
def inferTempo (dl : String) (n : ℕ) : ℕ :=
  if containsWord dl "slow" then pyRandint 60 80 n
  else if containsWord dl "fast" then pyRandint 120 160 n
  else pyRandint 90 120 n

/-- The time-signature keyword table. -/
def inferTimeSig (dl : String) (n : ℕ) : TimeSignature :=
  if containsWord dl "waltz" then .threeFour
  else if containsWord dl "complex" then
    pyChoice [TimeSignature.fiveFour, TimeSignature.sevenEight] .fourFour n
  else .fourFour

/-- All PRNG draws of one `generate_composition` call, one independent
stream per call site (the ideal semantics of the shared `random` stream:
any combination of values is reachable). -/
structure GenDraws where
  styleChoice : ℕ
  scaleChoice : ℕ
  tempoChoice : ℕ
  timeSigChoice : ℕ
  rhythm : RhythmDraws
  melody : MelodyDraws
  prog : ProgDraws
  instChoice : ℕ → ℕ
  melodyDetune : ℕ → ℕ → ℚ
  chordType : ℕ → ℕ
  chordDetune : ℕ → ℕ → ℕ → ℚ

/-- The all-zeros draw record, used for closed evaluations. -/
def zeroGenDraws : GenDraws :=
  ⟨0, 0, 0, 0, ⟨fun _ => 0, fun _ => 0⟩,
   ⟨0, fun _ => 0, fun _ => 0, fun _ => 0, fun _ => 0⟩,
   ⟨0, fun _ => 0, fun _ => 0⟩,
   fun _ => 0, fun _ _ => 0, fun _ => 0, fun _ _ _ => 0⟩

/-- The per-note instrument choice of the melody render loop. -/
def chooseInstrument (style : MusicStyle) (n : ℕ) : String :=
  match style with
  | .classical => pyChoice ["piano", "strings"] "piano" n
  | .jazz => pyChoice ["piano", "brass"] "piano" n
  | .electronic => pyChoice ["synth_lead", "synth_pad"] "piano" n
  | _ => "piano"

/-- The `# Add melody` loop of `generate_composition`: renders each note and
mixes it at gain 0.6 into the buffer, breaking once the cursor passes the
buffer end; tails beyond the buffer end are truncated. -/
def mixMelody (sr : ℕ) (A : AnalyticOracle) (dr : GenDraws) (style : MusicStyle)
    (total : ℕ) : List MusicalNote → ℕ → ℕ → List ℚ → Except Err (List ℚ)
  | [], _, _, comp => .ok comp
  | note :: rest, k, cur, comp =>
      if total ≤ cur then .ok comp
      else do
        let instrument := chooseInstrument style (dr.instChoice k)
        let noteAudio ← synthesizeNote sr A (dr.melodyDetune k) note instrument
        mixMelody sr A dr style total rest (k + 1)
          (cur + (pyInt (note.duration * sr)).toNat)
          (addInto comp cur (noteAudio.map (· * (6/10))))

/-- The inner `for freq in chord_freqs` loop of the harmony render: each
constituent pitch becomes a velocity-0.3 synth-pad note mixed at gain 0.4. -/
def mixChordPitches (sr : ℕ) (A : AnalyticOracle) (detune : ℕ → ℕ → ℚ)
    (chordDuration startTime : ℚ) (startSample endSample : ℕ) :
    List ℚ → ℕ → List ℚ → Except Err (List ℚ)
  | [], _, comp => .ok comp
  | freq :: rest, p, comp => do
      let chordAudio ← synthesizeNote sr A (detune p)
        ⟨freq, chordDuration, 3/10, startTime⟩ "synth_pad"
      mixChordPitches sr A detune chordDuration startTime startSample endSample
        rest (p + 1)
        (addInto comp startSample
          ((chordAudio.take (endSample - startSample)).map (· * (4/10))))

/-- The `# Add harmony/chords` loop of `generate_composition`. -/
def mixChords (sr : ℕ) (A : AnalyticOracle) (dr : GenDraws) (style : MusicStyle)
    (scaleFreqs : List ℚ) (scaleName : String) (chordDuration : ℚ)
    (total : ℕ) : List ℤ → ℕ → List ℚ → Except Err (List ℚ)
  | [], _, comp => .ok comp
  | deg :: rest, i, comp =>
      let startTime := (Nat.cast i : ℚ) * chordDuration
      let startSample := (pyInt (startTime * sr)).toNat
      if total ≤ startSample then .ok comp
      else do
        let chordRoot ← pyGet scaleFreqs (deg % (scaleFreqs.length : ℤ)).toNat
        let chordType :=
          if style = MusicStyle.jazz then
            pyChoice ["major7", "minor7", "dominant7"] "major" (dr.chordType i)
          else if scaleName = "major" ∨ scaleName = "lydian" then "major"
          else "minor"
        let chordFreqs := createChord A chordRoot chordType 0
        let chordSamples := (pyInt (chordDuration * sr)).toNat
        let endSample := min (startSample + chordSamples) total
        let comp' ← mixChordPitches sr A (dr.chordDetune i) chordDuration
          startTime startSample endSample chordFreqs 0 comp
        mixChords sr A dr style scaleFreqs scaleName chordDuration total rest
          (i + 1) comp'

/-- The `# Normalize` step: `np.max(np.abs(c))` (a `ValueError` on an empty
buffer), then scale the whole buffer so the peak becomes 0.8 when the peak
is positive, else return the buffer unchanged. -/
def normalizeComposition (composition : List ℚ) : Except Err (List ℚ) := do
  let peak ← npMax (composition.map (fun x => |x|))
  if 0 < peak then
    .ok (composition.map (fun x => x / peak * (8/10)))
  else .ok composition

/-- The style-selected effect presets. -/
def effectsFor (style : MusicStyle) : Effects :=
  match style with
  | .ambient => ⟨some (4/10), some (2/10), none⟩
  | .electronic => ⟨none, some (3/10), some (1/10)⟩
  | .classical => ⟨some (2/10), none, none⟩
  | _ => emptyEffects

/-- The body of `generate_composition` after input validation and
description analysis: scale, rhythm, melody, harmony, render, effects,
normalization. -/
def assembleComposition (sr : ℕ) (A : AnalyticOracle) (dr : GenDraws)
    (duration : ℚ) (style : MusicStyle) (scaleName : String)
    (timeSig : TimeSignature) : Except Err (List ℚ) := do
  let scaleFreqs := getScaleFrequencies A 440 scaleName 3
  let complexity : ℚ := if style = MusicStyle.ambient then 3/10 else 7/10
  let rhythmPattern0 ← generateRhythmPattern timeSig complexity dr.rhythm
  let patternDuration0 := rhythmPattern0.sum
  let rhythmPattern := if patternDuration0 ≤ 0 then [(1 : ℚ)/2, 1/2] else rhythmPattern0
  let patternDuration := if patternDuration0 ≤ 0 then (1 : ℚ) else patternDuration0
  let numRepetitions := pyInt (duration / patternDuration) + 1
  let extendedPattern :=
    pySliceTo (pyListMul rhythmPattern numRepetitions) (pyInt (duration * 2))
  let melody ← generateMelody scaleFreqs extendedPattern style dr.melody
  let chordStyle := if style = MusicStyle.jazz then "jazz" else "classical"
  let progressionLength := max 1 (melody.length / 4)
  let progPair ← generateProgression chordStyle (progressionLength : ℤ) dr.prog
    progressions0
  let progression := if progPair.1 = [] then [(0 : ℤ)] else progPair.1
  let totalSamples := (pyInt (duration * sr)).toNat
  let composition := List.replicate totalSamples (0 : ℚ)
  let composition ← mixMelody sr A dr style totalSamples melody 0 0 composition
  let chordDuration := duration / (max 1 progression.length : ℕ)
  let composition ← mixChords sr A dr style scaleFreqs scaleName chordDuration
    totalSamples progression 0 composition
  let effects := effectsFor style
  let composition ← (
    if effects ≠ emptyEffects then addEffects sr A composition effects
    else pure composition)
  normalizeComposition composition

/-- `AdvancedMusicGenerator.generate_composition(description, duration,
style)`: description sanitisation, the duration type check and clamps, the
keyword analysis, then assembly. -/
def generateComposition (sr : ℕ) (A : AnalyticOracle) (dr : GenDraws)
    (description : DescArg) (duration : DurArg) (style : Option MusicStyle) :
    Except Err (List ℚ) :=
  let desc := sanitizeDescription description
  match duration with
  | .nonNum _ => .error .typeError
  | .num d0 =>
      let d := clampDuration d0
      let dl := pyLower desc
      let style' := match style with
        | some s => s
        | none => inferStyle dl dr.styleChoice
      let scaleName := inferScaleName dl dr.scaleChoice
      let _tempo := inferTempo dl dr.tempoChoice
      let timeSig := inferTimeSig dl dr.timeSigChoice
      assembleComposition sr A dr d style' scaleName timeSig

/-! ### Theorems -/

theorem assocD_prop {P : α → Prop} (tbl : List (String × α)) (key : String) (d : α)
    (htbl : ∀ p ∈ tbl, P p.2) (hd : P d) : P (assocD tbl key d) := by
  induction tbl with
  | nil => exact hd
  | cons p t ih =>
      by_cases h : p.1 = key
      · simpa [assocD, h] using htbl p (by simp)
      · simpa [assocD, h] using ih (fun q hq => htbl q (by simp [hq]))

theorem fractQ_nonneg (q : ℚ) : 0 ≤ fractQ q :=
  sub_nonneg.2 (Int.floor_le q)

theorem fractQ_lt_one (q : ℚ) : fractQ q < 1 :=
  sub_lt_iff_lt_add.2 (by simpa [add_comm] using Int.lt_floor_add_one q)

theorem pyChoice_mem (l : List α) (d : α) (n : ℕ) (hl : l ≠ []) :
    pyChoice l d n ∈ l := by
  have hlen : 0 < l.length := List.length_pos.2 hl
  have hidx : n % l.length < l.length := Nat.mod_lt _ hlen
  simpa [pyChoice, List.getD, List.getElem?_eq_getElem hidx] using
    List.getElem_mem hidx

theorem addInto_length (dst : List ℚ) (start : ℕ) (src : List ℚ) :
    (addInto dst start src).length = dst.length := by
  simp [addInto]

theorem zipAdd_length (a b : List ℚ) (h : a.length = b.length) :
    (zipAdd a b).length = a.length := by
  simp [zipAdd, h]

theorem zipMul_length (a b : List ℚ) (h : a.length = b.length) :
    (zipMul a b).length = a.length := by
  simp [zipMul, h]

theorem linspaceQ_length (a b : ℚ) (n : ℕ) : (linspaceQ a b n).length = n := by
  unfold linspaceQ
  split
  · simp
  · rw [List.length_map, List.length_range]

theorem npSetRange_ok (dst : List ℚ) (start stop : ℕ) (src : List ℚ)
    (h : min stop dst.length - start = src.length) :
    npSetRange dst start stop src =
      .ok (dst.take start ++ src ++ dst.drop (start + src.length)) := by
  simp [npSetRange, h]

theorem npSetRange_ok_length (dst : List ℚ) (start stop : ℕ) (src : List ℚ)
    (out : List ℚ) (h : npSetRange dst start stop src = .ok out) :
    out.length = dst.length := by
  unfold npSetRange at h
  split at h
  · rename_i hlen
    cases h
    simp only [List.length_append, List.length_take, List.length_drop]
    omega
  · cases h

theorem rhythmGo_step_bounds (complexity : ℚ) (dr : RhythmDraws) (i : ℕ) :
    3/32 ≤ (if fractQ (dr.sync i) < complexity * (3/10) then
        (pyChoice (if complexity < 3/10 then [1, 1/2]
          else if complexity < 7/10 then [(1 : ℚ), 1/2, 1/4]
          else [1, 1/2, 1/4, 1/8]) 1 (dr.sub i)) * (3/4)
      else pyChoice (if complexity < 3/10 then [1, 1/2]
          else if complexity < 7/10 then [(1 : ℚ), 1/2, 1/4]
          else [1, 1/2, 1/4, 1/8]) 1 (dr.sub i)) ∧
    (if fractQ (dr.sync i) < complexity * (3/10) then
        (pyChoice (if complexity < 3/10 then [1, 1/2]
          else if complexity < 7/10 then [(1 : ℚ), 1/2, 1/4]
          else [1, 1/2, 1/4, 1/8]) 1 (dr.sub i)) * (3/4)
      else pyChoice (if complexity < 3/10 then [1, 1/2]
          else if complexity < 7/10 then [(1 : ℚ), 1/2, 1/4]
          else [1, 1/2, 1/4, 1/8]) 1 (dr.sub i)) ≤ 1 := by
  have hmem : ∀ x ∈ (if complexity < 3/10 then [1, 1/2]
      else if complexity < 7/10 then [(1 : ℚ), 1/2, 1/4]
      else [1, 1/2, 1/4, 1/8]), 1/8 ≤ x ∧ x ≤ 1 := by
    split
    · intro x hx; fin_cases hx <;> norm_num
    · split
      · intro x hx; fin_cases hx <;> norm_num
      · intro x hx; fin_cases hx <;> norm_num
  have hne : (if complexity < 3/10 then [1, 1/2]
      else if complexity < 7/10 then [(1 : ℚ), 1/2, 1/4]
      else [1, 1/2, 1/4, 1/8]) ≠ ([] : List ℚ) := by
    split
    · simp
    · split <;> simp
  have h0 := hmem _ (pyChoice_mem _ 1 (dr.sub i) hne)
  split
  · constructor
    · nlinarith [h0.1, h0.2]
    · nlinarith [h0.1, h0.2]
  · constructor
    · nlinarith [h0.1, h0.2]
    · exact h0.2

theorem rhythmGo_spec (beats : ℕ) (complexity : ℚ) (dr : RhythmDraws) :
    ∀ (fuel i : ℕ) (current : ℚ) (acc : List ℚ),
      (beats : ℚ) ≤ current + (fuel : ℚ) * (3/32) →
      ∃ ext : List ℚ,
        rhythmGo beats complexity dr fuel i current acc = .ok (acc.reverse ++ ext) ∧
        (beats : ℚ) ≤ current + ext.sum ∧
        (∀ x ∈ ext, 3/32 ≤ x ∧ x ≤ 1) ∧
        ext.length ≤ fuel ∧
        (current < (beats : ℚ) → 1 ≤ ext.length) := by
  intro fuel
  induction fuel with
  | zero =>
      intro i current acc hfuel
      refine ⟨[], ?_, ?_, ?_, ?_, ?_⟩
      · have hnl : ¬ current < (beats : ℚ) := by
          simp only [Nat.cast_zero, zero_mul, add_zero] at hfuel
          exact not_lt.2 hfuel
        simp [rhythmGo, hnl]
      · simpa using hfuel
      · simp
      · simp
      · intro hc
        exact absurd hc (by
          simp only [Nat.cast_zero, zero_mul, add_zero] at hfuel
          exact not_lt.2 hfuel)
  | succ fuel ih =>
      intro i current acc hfuel
      by_cases hc : current < (beats : ℚ)
      · have hs := rhythmGo_step_bounds complexity dr i
        set s := (if fractQ (dr.sync i) < complexity * (3/10) then
            (pyChoice (if complexity < 3/10 then [1, 1/2]
              else if complexity < 7/10 then [(1 : ℚ), 1/2, 1/4]
              else [1, 1/2, 1/4, 1/8]) 1 (dr.sub i)) * (3/4)
          else pyChoice (if complexity < 3/10 then [1, 1/2]
              else if complexity < 7/10 then [(1 : ℚ), 1/2, 1/4]
              else [1, 1/2, 1/4, 1/8]) 1 (dr.sub i)) with hsdef
        have hrec : rhythmGo beats complexity dr (fuel + 1) i current acc =
            rhythmGo beats complexity dr fuel (i + 1) (current + s) (s :: acc) := by
          rw [rhythmGo, if_pos hc]
        have hfuel' : (beats : ℚ) ≤ (current + s) + (fuel : ℚ) * (3/32) := by
          have : (fuel : ℚ) + 1 = ((fuel + 1 : ℕ) : ℚ) := by push_cast; ring
          nlinarith [hs.1, hfuel, this]
        obtain ⟨ext, hok, hsum, hbd, hlen, _⟩ := ih (i + 1) (current + s) (s :: acc) hfuel'
        refine ⟨s :: ext, ?_, ?_, ?_, ?_, ?_⟩
        · rw [hrec, hok]
          simp
        · have : current + (s :: ext).sum = (current + s) + ext.sum := by
            simp [List.sum_cons]; ring
          rw [this]; exact hsum
        · intro x hx
          rcases hx with _ | hx
          · exact ⟨hs.1, hs.2⟩
          · exact hbd x (by assumption)
        · simpa using Nat.succ_le_succ hlen
        · intro _; simp
      · refine ⟨[], ?_, ?_, ?_, ?_, ?_⟩
        · rw [rhythmGo, if_neg hc]; simp
        · simpa using not_lt.1 hc
        · simp
        · simp
        · intro h; exact absurd h hc

theorem generateRhythmPattern_spec (timeSig : TimeSignature) (complexity : ℚ)
    (dr : RhythmDraws) :
    ∃ pat : List ℚ,
      generateRhythmPattern timeSig complexity dr = .ok pat ∧
      (timeSig.value.1 : ℚ) ≤ pat.sum ∧
      1 ≤ pat.length ∧
      (∀ x ∈ pat, 3/32 ≤ x ∧ x ≤ 1) ∧
      pat.length ≤ 32 * timeSig.value.1 := by
  have hb : 0 < timeSig.value.1 := by cases timeSig <;> decide
  have hfuel : (timeSig.value.1 : ℚ) ≤ 0 + ((32 * timeSig.value.1 : ℕ) : ℚ) * (3/32) := by
    have : (0 : ℚ) < timeSig.value.1 := by exact_mod_cast hb
    push_cast
    nlinarith [this]
  obtain ⟨ext, hok, hsum, hbd, hlen, hne⟩ :=
    rhythmGo_spec timeSig.value.1 complexity dr (32 * timeSig.value.1) 0 0 [] hfuel
  refine ⟨ext, ?_, ?_, ?_, hbd, hlen⟩
  · simpa [generateRhythmPattern] using hok
  · simpa using hsum
  · exact hne (by exact_mod_cast Nat.cast_pos.2 hb)

/-- C6: for every enumerated time signature and complexity in `[0,1]`,
`generate_rhythm_pattern` terminates within a bounded number of iterations
(each chosen duration is at least `0.125 * 0.75 = 3/32` beats, so at most
`32 * beats_per_measure` iterations run), and the pattern satisfies
`sum ≥ beats_per_measure`, `len ≥ 1`, and every entry strictly positive. -/
theorem C6_rhythm_pattern_bounds (timeSig : TimeSignature) (complexity : ℚ)
    (dr : RhythmDraws) (h0 : 0 ≤ complexity) (h1 : complexity ≤ 1) :
    ∃ pat : List ℚ,
      generateRhythmPattern timeSig complexity dr = .ok pat ∧
      (timeSig.value.1 : ℚ) ≤ pat.sum ∧
      1 ≤ pat.length ∧
      (∀ x ∈ pat, 0 < x ∧ 3/32 ≤ x) ∧
      pat.length ≤ 32 * timeSig.value.1 := by
  obtain ⟨pat, hok, hsum, hlen1, hbd, hlen⟩ :=
    generateRhythmPattern_spec timeSig complexity dr
  exact ⟨pat, hok, hsum, hlen1,
    fun x hx => ⟨lt_of_lt_of_le (by norm_num) (hbd x hx).1, (hbd x hx).1⟩, hlen⟩

/-- Witness for C6 at `4/4`, complexity `1/2`, the all-zeros draw stream. -/
theorem C6_rhythm_pattern_bounds_witness :
    ∃ pat : List ℚ,
      generateRhythmPattern .fourFour (1/2) ⟨fun _ => 0, fun _ => 0⟩ = .ok pat ∧
      ((TimeSignature.fourFour).value.1 : ℚ) ≤ pat.sum ∧
      1 ≤ pat.length ∧
      (∀ x ∈ pat, 0 < x ∧ 3/32 ≤ x) ∧
      pat.length ≤ 32 * (TimeSignature.fourFour).value.1 :=
  C6_rhythm_pattern_bounds .fourFour (1/2) ⟨fun _ => 0, fun _ => 0⟩
    (by norm_num) (by norm_num)

theorem pyLastTwo_length_pos (p : List ℤ) (hp : p ≠ []) :
    1 ≤ (pyLastTwo p).length := by
  have : 0 < p.length := List.length_pos.2 hp
  simp only [pyLastTwo, List.length_drop]
  omega

theorem progLoop_spec (L : ℤ) (dr : ProgDraws) :
    ∀ (fuel i : ℕ) (p : List ℤ), p ≠ [] → L ≤ (p.length : ℤ) + fuel →
      ∃ q : List ℤ,
        progLoop L dr fuel i p = .ok q ∧
        L ≤ (q.length : ℤ) ∧
        (∀ x ∈ q, x ∈ p ∨ x ∈ ([0, 3, 4, 5] : List ℤ)) := by
  intro fuel
  induction fuel with
  | zero =>
      intro i p hp hle
      have hnl : ¬ ((p.length : ℤ) < L) := by push_cast at hle ⊢; omega
      exact ⟨p, by simp [progLoop, hnl], by omega, fun x hx => Or.inl hx⟩
  | succ fuel ih =>
      intro i p hp hle
      by_cases hlt : (p.length : ℤ) < L
      · set p' := if fractQ (dr.coin i) < 7/10 then p ++ pyLastTwo p
          else p ++ [pyChoice [0, 3, 4, 5] 0 (dr.app i)] with hp'
        have hgrow : p.length + 1 ≤ p'.length := by
          rw [hp']
          split
          · have := pyLastTwo_length_pos p hp
            simp only [List.length_append]
            omega
          · simp
        have hp'ne : p' ≠ [] := by
          have : 0 < p'.length := by
            have : 0 < p.length := List.length_pos.2 hp
            omega
          exact List.length_pos.1 this
        have hle' : L ≤ (p'.length : ℤ) + fuel := by push_cast at hle ⊢; omega
        obtain ⟨q, hok, hlen, hmem⟩ := ih (i + 1) p' hp'ne hle'
        refine ⟨q, ?_, hlen, ?_⟩
        · rw [progLoop, if_pos hlt, ← hp']
          exact hok
        · intro x hx
          rcases hmem x hx with hx' | hx'
          · rw [hp'] at hx'
            split at hx'
            · rcases List.mem_append.1 hx' with h | h
              · exact Or.inl h
              · exact Or.inl (List.mem_of_mem_drop h)
            · rcases List.mem_append.1 hx' with h | h
              · exact Or.inl h
              · simp only [List.mem_singleton] at h
                subst h
                exact Or.inr (pyChoice_mem _ 0 (dr.app i) (by simp))
          · exact Or.inr hx'
      · exact ⟨p, by rw [progLoop, if_neg hlt], by omega, fun x hx => Or.inl hx⟩

/-- When `L ≤ len p` already (in particular for every `L ≤ 0`), the loop
returns `p` unchanged, for any fuel. -/
theorem progLoop_noop (L : ℤ) (dr : ProgDraws) (fuel i : ℕ) (p : List ℤ)
    (h : ¬ ((p.length : ℤ) < L)) : progLoop L dr fuel i p = .ok p := by
  cases fuel <;> simp [progLoop, h]

/-- The resolved template set for any requested style is one of the four
pristine template lists: nonempty, all templates nonempty with only
non-negative degrees. -/
theorem progressions0_base (style : String) :
    let key := if hasKey progressions0 style then style else "classical"
    let base := assocD progressions0 key []
    base ≠ [] ∧ ∀ t ∈ base, t ≠ [] ∧ ∀ x ∈ t, 0 ≤ x := by
  intro key base
  by_cases h : hasKey progressions0 style
  · have hmem : ∃ p ∈ progressions0, p.1 = style := by
      simpa [hasKey, List.any_eq_true] using h
    obtain ⟨p, hp, hps⟩ := hmem
    have hkey : key = style := by simp [key, h]
    simp only [progressions0, List.mem_cons, List.not_mem_nil, or_false] at hp
    rcases hp with hp | hp | hp | hp <;>
      · subst hp
        simp only [← hps, hkey, base]
        refine ⟨by decide, by decide⟩
  · have hkey : key = "classical" := by simp [key, h]
    simp only [hkey, base]
    refine ⟨by decide, by decide⟩

theorem getD_mem (l : List α) (d : α) (n : ℕ) (h : n < l.length) :
    l.getD n d ∈ l := by
  simpa [List.getD, List.getElem?_eq_getElem h] using List.getElem_mem h

theorem set_getD_self (l : List α) (n : ℕ) (d : α) :
    l.set n (l.getD n d) = l := by
  induction l generalizing n with
  | nil => rfl
  | cons a t ih =>
      cases n with
      | zero => simp [List.getD]
      | succ m =>
          show a :: t.set m (t.getD m d) = a :: t
          rw [ih m]

theorem setAssoc_of_not_hasKey (tbl : List (String × α)) (key : String) (v : α)
    (h : hasKey tbl key = false) : setAssoc tbl key v = tbl := by
  induction tbl with
  | nil => rfl
  | cons p t ih =>
      simp only [hasKey, List.any_cons, Bool.or_eq_false_iff, beq_eq_false_iff_ne,
        ne_eq] at h
      simp only [setAssoc, List.map_cons, if_neg h.1]
      rw [show List.map (fun p => if p.1 = key then (p.1, v) else p) t =
        setAssoc t key v from rfl, ih (by simpa [hasKey] using h.2)]

theorem setAssoc_assocD_self (tbl : List (String × α)) (key : String) (d : α)
    (hnd : (tbl.map Prod.fst).Nodup) :
    setAssoc tbl key (assocD tbl key d) = tbl := by
  induction tbl with
  | nil => rfl
  | cons p t ih =>
      simp only [List.map_cons, List.nodup_cons] at hnd
      by_cases h : p.1 = key
      · have hnk : hasKey t key = false := by
          rw [← h]
          by_contra hcon
          rw [Bool.not_eq_false] at hcon
          have hcon' : ∃ x ∈ t, x.1 = p.1 := by
            simpa [hasKey, List.any_eq_true, beq_iff_eq] using hcon
          obtain ⟨q, hq, hqe⟩ := hcon'
          exact hnd.1 (hqe ▸ List.mem_map_of_mem Prod.fst hq)
        have hval : assocD (p :: t) key d = p.2 := by simp [assocD, h]
        show (if p.1 = key then (p.1, assocD (p :: t) key d) else p) ::
            setAssoc t key (assocD (p :: t) key d) = p :: t
        rw [if_pos h, hval, setAssoc_of_not_hasKey t key _ hnk]
      · have hval : assocD (p :: t) key d = assocD t key d := by simp [assocD, h]
        show (if p.1 = key then (p.1, assocD (p :: t) key d) else p) ::
            setAssoc t key (assocD (p :: t) key d) = p :: t
        rw [if_neg h, hval, ih hnd.2]

/-- Shared workhorse for C4: `generate_progression` on the pristine table
always succeeds; the result has exactly `L` non-negative entries when
`0 ≤ L`, and for `L < 0` it is a Python-sliced copy of the chosen template
and the table is left unchanged. -/
theorem generateProgression_ok (style : String) (L : ℤ) (dr : ProgDraws) :
    ∃ res tbl',
      generateProgression style L dr progressions0 = .ok (res, tbl') ∧
      (∀ x ∈ res, 0 ≤ x) ∧
      (0 ≤ L → (res.length : ℤ) = L) ∧
      (L < 0 →
        tbl' = progressions0 ∧
        ∃ tmpl ∈ assocD progressions0
          (if hasKey progressions0 style then style else "classical") [],
          res = pySliceTo tmpl L) := by
  obtain ⟨hbne, hbt⟩ := progressions0_base style
  set key := if hasKey progressions0 style then style else "classical" with hkey
  set base := assocD progressions0 key [] with hbase
  have hk : hasKey progressions0 key = true := by
    by_cases h : hasKey progressions0 style = true
    · rw [hkey, if_pos h]; exact h
    · rw [hkey, if_neg h]; decide
  have hblen : 0 < base.length := List.length_pos.2 hbne
  have hidx : dr.tmpl % base.length < base.length := Nat.mod_lt _ hblen
  set chosen := base.getD (dr.tmpl % base.length) [] with hchosen
  have hchm : chosen ∈ base := getD_mem base [] _ hidx
  obtain ⟨hchne, hchpos⟩ := hbt chosen hchm
  rcases le_or_lt 0 L with hL | hL
  · have hle : L ≤ (chosen.length : ℤ) + (L.toNat : ℕ) := by
      rw [Int.toNat_of_nonneg hL]; omega
    obtain ⟨q, hloop, hqlen, hqmem⟩ := progLoop_spec L dr L.toNat 0 chosen hchne hle
    refine ⟨pySliceTo q L,
      setAssoc progressions0 key (base.set (dr.tmpl % base.length) q), ?_, ?_, ?_, ?_⟩
    · simp only [generateProgression, ← hkey, ← hbase, if_neg hbne, ← hchosen, hloop]
      rfl
    · intro x hx
      have hxq : x ∈ q := by
        have : pySliceTo q L = q.take L.toNat := by simp [pySliceTo, hL]
        rw [this] at hx
        exact List.mem_of_mem_take hx
      rcases hqmem x hxq with h | h
      · exact hchpos x h
      · fin_cases h <;> norm_num
    · intro _
      have : pySliceTo q L = q.take L.toNat := by simp [pySliceTo, hL]
      rw [this, List.length_take]
      omega
    · intro h; omega
  · have hnl : ¬ ((chosen.length : ℤ) < L) := by
      have : (0 : ℤ) ≤ chosen.length := by positivity
      omega
    have hloop := progLoop_noop L dr L.toNat 0 chosen hnl
    refine ⟨pySliceTo chosen L,
      setAssoc progressions0 key (base.set (dr.tmpl % base.length) chosen), ?_, ?_, ?_, ?_⟩
    · simp only [generateProgression, ← hkey, ← hbase, if_neg hbne, ← hchosen, hloop]
      rfl
    · intro x hx
      have hxq : x ∈ chosen := by
        have : pySliceTo chosen L = chosen.take (chosen.length - (-L).toNat) := by
          simp only [pySliceTo, if_neg (by omega : ¬ (0 : ℤ) ≤ L)]
        rw [this] at hx
        exact List.mem_of_mem_take hx
      exact hchpos x hxq
    · intro h; omega
    · intro _
      constructor
      · rw [hchosen, set_getD_self, hbase]
        exact setAssoc_assocD_self _ _ _ (by decide)
      · exact ⟨chosen, hchm, rfl⟩

/-- C4 (amended): for every style string and `L ≥ 0`,
`generate_progression(style, L)` returns exactly `L` non-negative scale
degrees and never throws; for `L < 0` it also never throws, but returns the
chosen style template with its last `|L|` entries sliced off (Python
`lst[:L]`), which can have more than one element. -/
theorem C4_generate_progression_length (style : String) (L : ℤ) (dr : ProgDraws) :
    ∃ res tbl',
      generateProgression style L dr progressions0 = .ok (res, tbl') ∧
      (∀ x ∈ res, 0 ≤ x) ∧
      (0 ≤ L → (res.length : ℤ) = L) ∧
      (L < 0 → ∃ tmpl ∈ assocD progressions0
          (if hasKey progressions0 style then style else "classical") [],
          res = pySliceTo tmpl L) := by
  obtain ⟨res, tbl', hok, hpos, hlen, hneg⟩ := generateProgression_ok style L dr
  exact ⟨res, tbl', hok, hpos, hlen, fun h => (hneg h).2⟩

/-- Witness for C4 at style `"pop"`, `L = 6`. -/
theorem C4_generate_progression_length_witness :
    ∃ res tbl',
      generateProgression "pop" 6 ⟨0, fun _ => 0, fun _ => 0⟩ progressions0 =
        .ok (res, tbl') ∧ (res.length : ℤ) = 6 := by
  obtain ⟨res, tbl', hok, _, hlen, _⟩ :=
    C4_generate_progression_length "pop" 6 ⟨0, fun _ => 0, fun _ => 0⟩
  exact ⟨res, tbl', hok, hlen (by norm_num)⟩

/-- Counterexample to C4 as stated: `generate_progression("classical", -1)`
returns a three-element sequence (the chosen template minus its last entry),
not an empty or single-element one. -/
theorem C4_counterexample_negative_length :
    (generateProgression "classical" (-1) ⟨0, fun _ => 0, fun _ => 0⟩
        progressions0).map (fun r => r.1) = .ok [0, 3, 4] ∧
    ¬ (([0, 3, 4] : List ℤ).length = 0 ∨ ([0, 3, 4] : List ℤ).length = 1) := by
  constructor
  · decide
  · decide

unseal Rat.sub Rat.add Rat.mul Rat.inv in
/-- C5 is a genuine aliasing bug: `generate_progression("folk", 8)` extends
the chosen template list *in place*, so after the call the class-level
`PROGRESSIONS["folk"]` table differs element-wise from its pristine state
(its first template has grown from 4 to 8 entries). -/
theorem C5_progressions_table_mutated :
    (generateProgression "folk" 8 ⟨0, fun _ => 0, fun _ => 0⟩
        progressions0).map (fun r => assocD r.2 "folk" []) =
      .ok [[0, 4, 0, 4, 0, 4, 0, 4], [0, 3, 4, 0], [0, 5, 4, 0]] ∧
    assocD progressions0 "folk" [] = [[0, 4, 0, 4], [0, 3, 4, 0], [0, 5, 4, 0]] ∧
    ([[0, 4, 0, 4, 0, 4, 0, 4], [0, 3, 4, 0], [0, 5, 4, 0]] : List (List ℤ)) ≠
      [[0, 4, 0, 4], [0, 3, 4, 0], [0, 5, 4, 0]] := by
  refine ⟨by decide, by decide, by decide⟩

theorem clampIdx_lt (n : ℕ) (z : ℤ) (hn : 0 < n) : clampIdx n z < n := by
  unfold clampIdx
  omega

theorem pyGet_ok (l : List α) (n : ℕ) (h : n < l.length) :
    pyGet l n = .ok (l.get ⟨n, h⟩) := by
  simp [pyGet, List.getElem?_eq_getElem h]

theorem pyGet_ok_mem (l : List α) (n : ℕ) (h : n < l.length) :
    ∃ x ∈ l, pyGet l n = .ok x :=
  ⟨l.get ⟨n, h⟩, List.get_mem l n h, pyGet_ok l n h⟩

theorem pyUniform_mem (u : ℚ) : 1/2 ≤ pyUniform (1/2) 1 u ∧ pyUniform (1/2) 1 u ≤ 1 := by
  unfold pyUniform
  have h0 := fractQ_nonneg u
  have h1 := fractQ_lt_one u
  constructor <;> nlinarith

/-- Shared workhorse for C7: the melody loop always succeeds, emits one note
per rhythm entry in order, draws every frequency from `freqs`, keeps
velocities in `[1/2, 1]`, and stamps `start_time` with the running sum of the
preceding durations. -/
theorem melodyGo_spec (freqs : List ℚ) (stepP : ℚ) (leapMax : ℕ)
    (dr : MelodyDraws) (hfr : freqs ≠ []) :
    ∀ (pattern : List ℚ) (k idx : ℕ) (time : ℚ),
      ∃ notes : List MusicalNote,
        melodyGo freqs stepP leapMax dr pattern k idx time = .ok notes ∧
        notes.length = pattern.length ∧
        (∀ note ∈ notes, note.frequency ∈ freqs ∧
          1/2 ≤ note.velocity ∧ note.velocity ≤ 1) ∧
        (∀ j, (notes.getD j ⟨0, 0, 0, 0⟩).duration = pattern.getD j 0 ∨
          pattern.length ≤ j) ∧
        (∀ j < pattern.length,
          (notes.getD j ⟨0, 0, 0, 0⟩).start_time = time + (pattern.take j).sum) ∧
        (∀ note ∈ notes, note.duration ∈ pattern) := by
  have hlen : 0 < freqs.length := List.length_pos.2 hfr
  intro pattern
  induction pattern with
  | nil =>
      intro k idx time
      exact ⟨[], rfl, rfl, by simp, fun j => Or.inr (by simp), by simp, by simp⟩
  | cons d rest ih =>
      intro k idx time
      set idx' := if fractQ (dr.stepCoin k) < stepP then
          clampIdx freqs.length ((idx : ℤ) + pyChoice [-1, 1] 0 (dr.dir k))
        else
          clampIdx freqs.length
            ((idx : ℤ) + pyChoice [-1, 1] 0 (dr.dir k) *
              (pyRandint 2 leapMax (dr.leap k) : ℤ)) with hidx'
      have hidxlt : idx' < freqs.length := by
        rw [hidx']
        split <;> exact clampIdx_lt _ _ hlen
      obtain ⟨notes', hok', hlen', hmem', hdur', hst', hdm'⟩ := ih (k + 1) idx' (time + d)
      refine ⟨⟨freqs.get ⟨idx', hidxlt⟩, d, pyUniform (1/2) 1 (dr.vel k), time⟩ :: notes',
        ?_, ?_, ?_, ?_, ?_, ?_⟩
      · rw [melodyGo, ← hidx', pyGet_ok freqs idx' hidxlt, hok']
        rfl
      · simpa using hlen'
      · intro note hnote
        rcases List.mem_cons.1 hnote with h | h
        · subst h
          exact ⟨List.get_mem freqs idx' hidxlt, (pyUniform_mem (dr.vel k)).1,
            (pyUniform_mem (dr.vel k)).2⟩
        · exact hmem' note h
      · intro j
        cases j with
        | zero => exact Or.inl rfl
        | succ m =>
            rcases hdur' m with h | h
            · exact Or.inl (by simpa using h)
            · exact Or.inr (by simpa using Nat.succ_le_succ h)
      · intro j hj
        cases j with
        | zero => simp
        | succ m =>
            have hm : m < rest.length := by simpa using hj
            have hstep := hst' m hm
            simp only [List.getD, List.getElem?_cons_succ, List.take_succ_cons,
              List.sum_cons]
            show (notes'.getD m ⟨0, 0, 0, 0⟩).start_time = time + (d + (rest.take m).sum)
            rw [hstep]
            ring
      · intro note hnote
        rcases List.mem_cons.1 hnote with h | h
        · subst h
          exact List.mem_cons_self _ _
        · exact List.mem_cons_of_mem _ (hdm' note h)

/-- C7: `generate_melody` returns exactly one Note per rhythm entry, in
order; every scale-index access is within bounds (the embedding raises no
`IndexError`) because the index is clamped to `[0, len-1]` after every step
or leap, so every note's frequency is an element of `scale_freqs` (or 440 Hz
when `scale_freqs` is empty), every velocity lies in `[0.5, 1.0]`, and each
note's `start_time` equals the running sum of the preceding durations. -/
theorem C7_generate_melody_safety (scaleFreqs rhythmPattern : List ℚ)
    (style : MusicStyle) (dr : MelodyDraws) :
    ∃ notes : List MusicalNote,
      generateMelody scaleFreqs rhythmPattern style dr = .ok notes ∧
      notes.length = rhythmPattern.length ∧
      (∀ note ∈ notes,
        note.frequency ∈ (if scaleFreqs = [] then [(440 : ℚ)] else scaleFreqs) ∧
        1/2 ≤ note.velocity ∧ note.velocity ≤ 1) ∧
      (∀ j < rhythmPattern.length,
        (notes.getD j ⟨0, 0, 0, 0⟩).duration = rhythmPattern.getD j 0 ∧
        (notes.getD j ⟨0, 0, 0, 0⟩).start_time = (rhythmPattern.take j).sum) := by
  have hfr : (if scaleFreqs = [] then [(440 : ℚ)] else scaleFreqs) ≠ [] := by
    split
    · simp
    · assumption
  obtain ⟨notes, hok, hlen, hmem, hdur, hst, _⟩ :=
    melodyGo_spec (if scaleFreqs = [] then [(440 : ℚ)] else scaleFreqs)
      (styleStepProb style) (styleLeapMax style) dr hfr rhythmPattern 0
      (pyRandint 0
        (max 0 ((if scaleFreqs = [] then [(440 : ℚ)] else scaleFreqs).length / 2))
        dr.init) 0
  refine ⟨notes, hok, hlen, hmem, ?_⟩
  intro j hj
  refine ⟨?_, by simpa using hst j hj⟩
  rcases hdur j with h | h
  · exact h
  · omega

/-- Witness for C7 on an empty scale, a one-entry rhythm pattern, classical
style, and the all-zeros draw stream. -/
theorem C7_generate_melody_safety_witness :
    ∃ notes : List MusicalNote,
      generateMelody [] [1/2] .classical ⟨0, fun _ => 0, fun _ => 0, fun _ => 0, fun _ => 0⟩ =
        .ok notes ∧
      notes.length = 1 ∧
      (∀ note ∈ notes, note.frequency ∈ [(440 : ℚ)] ∧
        1/2 ≤ note.velocity ∧ note.velocity ≤ 1) := by
  obtain ⟨notes, hok, hlen, hmem, _⟩ :=
    C7_generate_melody_safety [] [1/2] .classical
      ⟨0, fun _ => 0, fun _ => 0, fun _ => 0, fun _ => 0⟩
  exact ⟨notes, hok, by simpa using hlen, by simpa using hmem⟩

unseal Rat.sub Rat.add Rat.mul Rat.inv in
/-- C8 is refuted at a 100-sample time vector with the default parameters:
between the end of the decay segment (sample 31) and the start of the release
segment (sample 50) the envelope still holds its `np.ones` initialisation
value `1.0`, not the sustain level `0.7` — the code never writes the sustain
level into the plateau, contradicting its own "ADSR envelope" docstring and
`sustain=0.7` parameter. -/
theorem C8_piano_envelope_sustain_plateau :
    (pianoEnvelope (linspaceQ 0 1 100) (1/100) (3/10) (7/10) (1/2)).map
      (fun e => e.getD 40 0) = .ok 1 ∧ (1 : ℚ) ≠ 7/10 := by
  exact ⟨by decide, by norm_num⟩

theorem reverbStage_length (sr : ℕ) (effects : Effects) (processed out : List ℚ)
    (h : reverbStage sr effects processed = .ok out) :
    out.length = processed.length := by
  unfold reverbStage at h
  split at h
  · split at h
    · simp only [] at h
      split at h
      · rename_i amount _ _
        simp only [bind, Except.bind] at h
        split at h
        · cases h
        · rename_i arr harr
          cases h
          have harrlen : arr.length = processed.length := by
            simpa using npSetRange_ok_length _ _ _ _ _ harr
          simp only [zipAdd, List.length_zipWith, harrlen]
          omega
      · cases h; rfl
    · cases h; rfl
  · cases h; rfl

theorem chorusStage_length (sr : ℕ) (A : AnalyticOracle) (effects : Effects)
    (processed out : List ℚ)
    (h : chorusStage sr A effects processed = .ok out) :
    out.length = processed.length := by
  unfold chorusStage at h
  split at h
  · split at h
    · simp only [] at h
      split at h
      · rename_i amount _ _
        simp only [bind, Except.bind] at h
        split at h
        · cases h
        · rename_i arr harr
          cases h
          have harrlen : arr.length = processed.length := by
            simpa using npSetRange_ok_length _ _ _ _ _ harr
          simp only [zipAdd, zipMul, List.length_zipWith, List.length_take,
            List.length_map, linspaceQ_length, harrlen]
          omega
      · cases h; rfl
    · cases h; rfl
  · cases h; rfl

theorem distortionStage_length (A : AnalyticOracle) (effects : Effects)
    (processed : List ℚ) :
    (distortionStage A effects processed).length = processed.length := by
  unfold distortionStage
  split
  · split <;> simp
  · rfl

theorem addEffects_length (sr : ℕ) (A : AnalyticOracle) (audio out : List ℚ)
    (effects : Effects) (h : addEffects sr A audio effects = .ok out) :
    out.length = audio.length := by
  unfold addEffects at h
  simp only [bind, Except.bind] at h
  split at h
  · cases h
  · rename_i p1 h1
    split at h
    · cases h
    · rename_i p2 h2
      cases h
      rw [distortionStage_length, chorusStage_length _ _ _ _ _ h2,
        reverbStage_length _ _ _ _ h1]

theorem reverbStage_skip (sr : ℕ) (effects : Effects) (processed : List ℚ)
    (h : ∀ amount, effects.reverb = some amount → 0 < amount →
      ¬ (pyInt ((5/100) * sr)).toNat < processed.length) :
    reverbStage sr effects processed = .ok processed := by
  unfold reverbStage
  split
  · rename_i amount hamount
    split
    · rename_i hpos
      rw [if_neg (h amount hamount hpos)]
      rfl
    · rfl
  · rfl

theorem chorusStage_skip (sr : ℕ) (A : AnalyticOracle) (effects : Effects)
    (processed : List ℚ)
    (h : ∀ amount, effects.chorus = some amount → 0 < amount →
      ¬ (pyInt ((2/100) * sr)).toNat < processed.length) :
    chorusStage sr A effects processed = .ok processed := by
  unfold chorusStage
  split
  · rename_i amount hamount
    split
    · rename_i hpos
      rw [if_neg (h amount hamount hpos)]
      rfl
    · rfl
  · rfl

theorem reverbStage_ok (sr : ℕ) (effects : Effects) (processed : List ℚ)
    (hd : 1 ≤ (pyInt ((5/100) * sr)).toNat) :
    ∃ out, reverbStage sr effects processed = .ok out := by
  unfold reverbStage
  split
  · rename_i amount hamount
    split
    · rename_i hpos
      set d := (pyInt ((5/100) * sr)).toNat with hddef
      by_cases hlt : d < processed.length
      · have hsrc : ((pySliceTo processed (-(d : ℤ))).map (· * amount)).length =
            processed.length - d := by
          rw [List.length_map]
          simp only [pySliceTo]
          rw [if_neg (by omega : ¬ (0 : ℤ) ≤ -(d : ℤ))]
          simp only [List.length_take]
          omega
        have hset := npSetRange_ok (List.replicate processed.length (0 : ℚ)) d
          (List.replicate processed.length (0 : ℚ)).length
          ((pySliceTo processed (-(d : ℤ))).map (· * amount))
          (by rw [hsrc]; simp)
        rw [if_pos hlt]
        simp only [bind, Except.bind]
        rw [hset]
        exact ⟨_, rfl⟩
      · rw [if_neg hlt]
        exact ⟨processed, rfl⟩
    · exact ⟨processed, rfl⟩
  · exact ⟨processed, rfl⟩

theorem chorusStage_ok (sr : ℕ) (A : AnalyticOracle) (effects : Effects)
    (processed : List ℚ) (hd : 1 ≤ (pyInt ((2/100) * sr)).toNat) :
    ∃ out, chorusStage sr A effects processed = .ok out := by
  unfold chorusStage
  split
  · rename_i amount hamount
    split
    · rename_i hpos
      set d := (pyInt ((2/100) * sr)).toNat with hddef
      by_cases hlt : d < processed.length
      · have hsrc : ((pySliceTo processed (-(d : ℤ))).map (· * amount)).length =
            processed.length - d := by
          rw [List.length_map]
          simp only [pySliceTo]
          rw [if_neg (by omega : ¬ (0 : ℤ) ≤ -(d : ℤ))]
          simp only [List.length_take]
          omega
        have hset := npSetRange_ok (List.replicate processed.length (0 : ℚ)) d
          (List.replicate processed.length (0 : ℚ)).length
          ((pySliceTo processed (-(d : ℤ))).map (· * amount))
          (by rw [hsrc]; simp)
        rw [if_pos hlt]
        simp only [bind, Except.bind]
        rw [hset]
        exact ⟨_, rfl⟩
      · rw [if_neg hlt]
        exact ⟨processed, rfl⟩
    · exact ⟨processed, rfl⟩
  · exact ⟨processed, rfl⟩

/-- For `sr ≥ 50`, `add_effects` never raises and preserves the buffer
length, for every effects map. -/
theorem addEffects_ok (sr : ℕ) (A : AnalyticOracle) (audio : List ℚ)
    (effects : Effects) (hsr : 50 ≤ sr) :
    ∃ out, addEffects sr A audio effects = .ok out ∧
      out.length = audio.length := by
  have hd1 : 1 ≤ (pyInt ((5/100) * sr)).toNat := by
    have hsr' : (50 : ℚ) ≤ sr := by exact_mod_cast hsr
    have h1 : (1 : ℚ) ≤ (5/100) * sr := by nlinarith
    have h0 : (0 : ℚ) ≤ (5/100) * sr := by positivity
    have hfl : (1 : ℤ) ≤ ⌊(5/100 : ℚ) * (sr : ℚ)⌋ := Int.le_floor.2 (by exact_mod_cast h1)
    simp only [pyInt, if_pos h0]
    omega
  have hd2 : 1 ≤ (pyInt ((2/100) * sr)).toNat := by
    have hsr' : (50 : ℚ) ≤ sr := by exact_mod_cast hsr
    have h1 : (1 : ℚ) ≤ (2/100) * sr := by nlinarith
    have h0 : (0 : ℚ) ≤ (2/100) * sr := by positivity
    have hfl : (1 : ℤ) ≤ ⌊(2/100 : ℚ) * (sr : ℚ)⌋ := Int.le_floor.2 (by exact_mod_cast h1)
    simp only [pyInt, if_pos h0]
    omega
  obtain ⟨p1, h1⟩ := reverbStage_ok sr effects audio hd1
  obtain ⟨p2, h2⟩ := chorusStage_ok sr A effects p1 hd2
  refine ⟨distortionStage A effects p2, ?_, ?_⟩
  · unfold addEffects
    show (reverbStage sr effects audio >>= fun q1 => chorusStage sr A effects q1 >>=
      fun q2 => pure (distortionStage A effects q2)) = _
    rw [h1]
    show (chorusStage sr A effects p1 >>= fun p2 => pure (distortionStage A effects p2)) = _
    rw [h2]
    rfl
  · rw [distortionStage_length, chorusStage_length _ _ _ _ _ h2,
      reverbStage_length _ _ _ _ h1]

/-- C9: `add_effects` with the empty effects map is the identity transform,
and for every effects map the returned buffer (when one is returned — for
`sr ≥ 50`, e.g. the system's 44100 Hz, one always is) has the same length as
the input. -/
theorem C9_add_effects_identity_and_length (sr : ℕ) (A : AnalyticOracle)
    (audio : List ℚ) :
    addEffects sr A audio emptyEffects = .ok audio ∧
    (∀ effects out, addEffects sr A audio effects = .ok out →
      out.length = audio.length) ∧
    (∀ effects, 50 ≤ sr →
      ∃ out, addEffects sr A audio effects = .ok out ∧
        out.length = audio.length) := by
  refine ⟨rfl, fun effects out h => addEffects_length sr A audio out effects h,
    fun effects hsr => addEffects_ok sr A audio effects hsr⟩

/-- Witness for C9 at `sr = 100`, a three-sample buffer, a full effects map. -/
theorem C9_add_effects_identity_and_length_witness :
    addEffects 100 zeroOracle [1, 0, 0] emptyEffects = .ok [1, 0, 0] ∧
    ∃ out, addEffects 100 zeroOracle [1, 0, 0] ⟨some 1, some 1, some 1⟩ = .ok out ∧
      out.length = 3 := by
  refine ⟨(C9_add_effects_identity_and_length 100 zeroOracle [1, 0, 0]).1, ?_⟩
  obtain ⟨out, hok, hlen⟩ :=
    (C9_add_effects_identity_and_length 100 zeroOracle [1, 0, 0]).2.2
      ⟨some 1, some 1, some 1⟩ (by norm_num)
  exact ⟨out, hok, hlen⟩

unseal Rat.sub Rat.add Rat.mul Rat.inv in
/-- Counterexample to C10 as stated: at `sr = 100` the reverb delay is
`int(0.05*100) = 5` samples and the chorus delay only `int(0.02*100) = 2`,
so on the 3-sample buffer `[1,0,0]` (not longer than the reverb tap) with
positive reverb and chorus amounts the chorus tap still fires and the output
differs from the input at sample 2. -/
theorem C10_counterexample :
    ([1, 0, 0] : List ℚ).length ≤ (pyInt ((5/100) * (100 : ℕ))).toNat ∧
    addEffects 100 zeroOracle [1, 0, 0] ⟨some (1/2), some (1/2), none⟩ =
      .ok [1, 0, 1/2] ∧
    ([1, 0, 1/2] : List ℚ) ≠ [1, 0, 0] := by
  exact ⟨by decide, by decide, by decide⟩

/-- C10 (amended): the threshold below which both delay-based effects are
silently skipped is the *chorus* delay `int(0.02 * sample_rate)` (the
smaller tap), not the reverb delay: for every buffer at most that long,
`add_effects` with positive reverb and chorus amounts and no distortion
returns the buffer unchanged; and on the empty buffer `add_effects` never
raises for any effects map. -/
theorem C10_delay_noop_threshold (sr : ℕ) (A : AnalyticOracle) (buf : List ℚ)
    (rv cv : ℚ) (hrv : 0 < rv) (hcv : 0 < cv)
    (hlen : buf.length ≤ (pyInt ((2/100) * sr)).toNat) :
    addEffects sr A buf ⟨some rv, some cv, none⟩ = .ok buf ∧
    ∀ effects, addEffects sr A [] effects = .ok [] := by
  constructor
  · have hmono : (pyInt ((2/100) * sr)).toNat ≤ (pyInt ((5/100) * sr)).toNat := by
      have hsr0 : (0 : ℚ) ≤ sr := by positivity
      have h1 : ((2/100 : ℚ)) * sr ≤ (5/100) * sr := by nlinarith
      have h2 : (0 : ℚ) ≤ (2/100) * sr := by positivity
      have h3 : (0 : ℚ) ≤ (5/100) * sr := by positivity
      simp only [pyInt, if_pos h2, if_pos h3]
      have := Int.floor_le_floor h1
      omega
    have h1 := reverbStage_skip sr ⟨some rv, some cv, none⟩ buf
      (fun amount ha hp => by omega)
    have h2 := chorusStage_skip sr A ⟨some rv, some cv, none⟩ buf
      (fun amount ha hp => by omega)
    unfold addEffects
    show (reverbStage sr ⟨some rv, some cv, none⟩ buf >>= fun q1 =>
      chorusStage sr A ⟨some rv, some cv, none⟩ q1 >>=
      fun q2 => pure (distortionStage A ⟨some rv, some cv, none⟩ q2)) = _
    rw [h1]
    show (chorusStage sr A ⟨some rv, some cv, none⟩ buf >>= fun p2 =>
      pure (distortionStage A ⟨some rv, some cv, none⟩ p2)) = _
    rw [h2]
    rfl
  · intro effects
    have h1 := reverbStage_skip sr effects ([] : List ℚ)
      (fun amount ha hp => by simp)
    have h2 := chorusStage_skip sr A effects ([] : List ℚ)
      (fun amount ha hp => by simp)
    unfold addEffects
    show (reverbStage sr effects [] >>= fun q1 => chorusStage sr A effects q1 >>=
      fun q2 => pure (distortionStage A effects q2)) = _
    rw [h1]
    show (chorusStage sr A effects [] >>= fun p2 =>
      pure (distortionStage A effects p2)) = _
    rw [h2]
    show Except.ok (distortionStage A effects []) = _
    simp only [distortionStage]
    split
    · split <;> rfl
    · rfl

unseal Rat.sub Rat.add Rat.mul Rat.inv in
/-- Witness for C10's amended statement at `sr = 100`, a two-sample buffer. -/
theorem C10_delay_noop_threshold_witness :
    addEffects 100 zeroOracle [1, 0] ⟨some (1/2), some (1/2), none⟩ = .ok [1, 0] :=
  (C10_delay_noop_threshold 100 zeroOracle [1, 0] (1/2) (1/2)
    (by norm_num) (by norm_num) (by decide)).1

theorem assocD_mem_of_hasKey (tbl : List (String × α)) (k : String) (d : α)
    (h : hasKey tbl k = true) : ∃ q ∈ tbl, q.1 = k ∧ assocD tbl k d = q.2 := by
  induction tbl with
  | nil => simp [hasKey] at h
  | cons p t ih =>
      by_cases hp : p.1 = k
      · exact ⟨p, by simp, hp, by simp [assocD, hp]⟩
      · have h' : hasKey t k = true := by
          simpa [hasKey, List.any_cons, hp] using h
        obtain ⟨q, hq, hqk, hqd⟩ := ih h'
        exact ⟨q, by simp [hq], hqk, by simpa [assocD, hp] using hqd⟩

/-- The resolved scale set is always one of the twelve tables (or the
"major" fallback), hence nonempty. -/
theorem getScaleFrequencies_length (A : AnalyticOracle) (rootFreq : ℚ)
    (scaleName : String) (octaves : ℕ) :
    (getScaleFrequencies A rootFreq scaleName octaves).length =
      octaves * (assocD SCALES
        (if hasKey SCALES scaleName then scaleName else "major") []).length := by
  unfold getScaleFrequencies
  rw [List.length_flatten]
  simp [Function.comp_def, List.map_map, Nat.mul_comm]

theorem getScaleFrequencies_ne_nil (A : AnalyticOracle) (rootFreq : ℚ)
    (scaleName : String) :
    getScaleFrequencies A rootFreq scaleName 3 ≠ [] := by
  have hlen : 5 ≤ (assocD SCALES
      (if hasKey SCALES scaleName then scaleName else "major") []).length := by
    by_cases h : hasKey SCALES scaleName = true
    · rw [if_pos h]
      obtain ⟨q, hq, _, hqd⟩ := assocD_mem_of_hasKey SCALES scaleName [] h
      rw [hqd]
      have : ∀ p ∈ SCALES, 5 ≤ p.2.length := by decide
      exact this q hq
    · rw [if_neg h]
      decide
  have h0 := getScaleFrequencies_length A rootFreq scaleName 3
  intro hcon
  rw [hcon] at h0
  simp only [List.length_nil] at h0
  omega

/-! ### Totality of the pipeline for realistic sample rates -/

theorem bind_ok_eq (a : α) (f : α → Except Err β) : (Except.ok a >>= f) = f a := rfl

theorem pyInt_frac_le (c : ℚ) (n : ℕ) (h0 : 0 ≤ c) (h1 : c ≤ 1) :
    0 ≤ pyInt (c * n) ∧ pyInt (c * n) ≤ n := by
  have hn0 : (0 : ℚ) ≤ (n : ℚ) := by positivity
  have hcn : (0 : ℚ) ≤ c * n := by positivity
  constructor
  · rw [pyInt, if_pos hcn]
    exact Int.floor_nonneg.2 hcn
  · rw [pyInt, if_pos hcn]
    have hle : c * (n : ℚ) ≤ (n : ℚ) := by nlinarith
    calc ⌊c * (n : ℚ)⌋ ≤ ⌊((n : ℕ) : ℚ)⌋ := Int.floor_le_floor hle
      _ = n := Int.floor_natCast n

theorem pianoAttackStage_ok (attack : ℚ) (n : ℕ) (envelope : List ℚ)
    (he : envelope.length = n) (h0 : 0 ≤ pyInt (attack * n))
    (h1 : pyInt (attack * n) ≤ n) :
    ∃ out, pianoAttackStage attack n envelope = .ok out ∧ out.length = n := by
  unfold pianoAttackStage
  by_cases hp : 0 < pyInt (attack * n)
  · rw [if_pos hp]
    have hnl : npLinspaceZ 0 1 (pyInt (attack * n)) =
        .ok (linspaceQ 0 1 (pyInt (attack * n)).toNat) := by
      rw [npLinspaceZ, if_neg (by omega)]
    rw [hnl, bind_ok_eq]
    have hset := npSetRange_ok envelope 0 (pyInt (attack * n)).toNat
      (linspaceQ 0 1 (pyInt (attack * n)).toNat)
      (by rw [linspaceQ_length, he]; omega)
    refine ⟨_, hset, ?_⟩
    rw [npSetRange_ok_length _ _ _ _ _ hset, he]
  · rw [if_neg hp]
    exact ⟨envelope, rfl, he⟩

theorem pianoDecayStage_ok (attack decay sustain : ℚ) (n : ℕ) (envelope : List ℚ)
    (he : envelope.length = n) (h0 : 0 ≤ pyInt (attack * n))
    (h1 : pyInt (attack * n) ≤ n) :
    ∃ out, pianoDecayStage attack decay sustain n envelope = .ok out ∧
      out.length = n := by
  unfold pianoDecayStage
  by_cases hp : 0 < pyInt (decay * n)
  · rw [if_pos hp]
    have hnum : ¬ (min (pyInt (attack * n) + pyInt (decay * n)) (n : ℤ) -
        pyInt (attack * n) < 0) := by omega
    have hnl : npLinspaceZ 1 sustain
        (min (pyInt (attack * n) + pyInt (decay * n)) (n : ℤ) - pyInt (attack * n)) =
        .ok (linspaceQ 1 sustain
          (min (pyInt (attack * n) + pyInt (decay * n)) (n : ℤ) -
            pyInt (attack * n)).toNat) := by
      rw [npLinspaceZ, if_neg hnum]
    show ∃ out,
      (npLinspaceZ 1 sustain
        (min (pyInt (attack * n) + pyInt (decay * n)) (n : ℤ) - pyInt (attack * n)) >>=
        fun src => npSetRange envelope (pyInt (attack * n)).toNat
          (min (pyInt (attack * n) + pyInt (decay * n)) (n : ℤ)).toNat src) =
        .ok out ∧ out.length = n
    rw [hnl, bind_ok_eq]
    have hset := npSetRange_ok envelope (pyInt (attack * n)).toNat
      (min (pyInt (attack * n) + pyInt (decay * n)) (n : ℤ)).toNat
      (linspaceQ 1 sustain
        (min (pyInt (attack * n) + pyInt (decay * n)) (n : ℤ) -
          pyInt (attack * n)).toNat)
      (by rw [linspaceQ_length, he]; omega)
    refine ⟨_, hset, ?_⟩
    rw [npSetRange_ok_length _ _ _ _ _ hset, he]
  · rw [if_neg hp]
    exact ⟨envelope, rfl, he⟩

theorem pianoReleaseStage_ok (sustain release : ℚ) (n : ℕ) (envelope : List ℚ)
    (he : envelope.length = n) (h0 : 0 ≤ pyInt ((1 - release) * n))
    (h1 : pyInt ((1 - release) * n) ≤ n) :
    ∃ out, pianoReleaseStage sustain release n envelope = .ok out ∧
      out.length = n := by
  unfold pianoReleaseStage
  have hnl : npLinspaceZ sustain 0 ((n : ℤ) - pyInt ((1 - release) * n)) =
      .ok (linspaceQ sustain 0 ((n : ℤ) - pyInt ((1 - release) * n)).toNat) := by
    rw [npLinspaceZ, if_neg (by omega)]
  show ∃ out,
    (npLinspaceZ sustain 0 ((n : ℤ) - pyInt ((1 - release) * n)) >>=
      fun src => npSetRange envelope (pyInt ((1 - release) * n)).toNat n src) =
      .ok out ∧ out.length = n
  rw [hnl, bind_ok_eq]
  have hset := npSetRange_ok envelope (pyInt ((1 - release) * n)).toNat n
    (linspaceQ sustain 0 ((n : ℤ) - pyInt ((1 - release) * n)).toNat)
    (by rw [linspaceQ_length, he]; omega)
  refine ⟨_, hset, ?_⟩
  rw [npSetRange_ok_length _ _ _ _ _ hset, he]

theorem pianoEnvelope_ok (t : List ℚ) (ht : t ≠ []) :
    ∃ e, pianoEnvelope t (1/100) (3/10) (7/10) (1/2) = .ok e ∧
      e.length = t.length := by
  have hlast : ¬ (t.getLast? = none) := by
    cases t with
    | nil => simp at ht
    | cons a l =>
        rw [List.getLast?_eq_getLast _ (by simp)]
        simp
  obtain ⟨ha0, ha1⟩ := pyInt_frac_le (1/100) t.length (by norm_num) (by norm_num)
  obtain ⟨e1, he1, hl1⟩ := pianoAttackStage_ok (1/100) t.length
    (List.replicate t.length (1 : ℚ)) (by simp) ha0 ha1
  obtain ⟨e2, he2, hl2⟩ := pianoDecayStage_ok (1/100) (3/10) (7/10) t.length e1
    hl1 ha0 ha1
  obtain ⟨hr0, hr1⟩ := pyInt_frac_le (1 - 1/2) t.length (by norm_num) (by norm_num)
  obtain ⟨e3, he3, hl3⟩ := pianoReleaseStage_ok (7/10) (1/2) t.length e2 hl2 hr0 hr1
  refine ⟨e3, ?_, hl3⟩
  unfold pianoEnvelope
  rw [if_neg hlast, he1, bind_ok_eq, he2, bind_ok_eq, he3]

theorem bind_pure_ok (m : Except Err α) (f : α → β) (a : α) (h : m = .ok a) :
    (m >>= fun x => (pure (f x) : Except Err β)) = .ok (f a) := by
  rw [h]; rfl

theorem synthesizeNote_ok (sr : ℕ) (A : AnalyticOracle) (detune : ℕ → ℚ)
    (note : MusicalNote) (instrumentType : String)
    (hp : instrumentType = "piano" → 1 ≤ pyInt (note.duration * sr)) :
    ∃ out, synthesizeNote sr A detune note instrumentType = .ok out := by
  have henv : ∃ e,
      (if instrumentType = "piano" then
        pianoEnvelope (linspaceQ 0 note.duration (pyInt (note.duration * sr)).toNat)
          (1/100) (3/10) (7/10) (1/2)
      else if instrumentType = "strings" then
        pure (stringEnvelope A
          (linspaceQ 0 note.duration (pyInt (note.duration * sr)).toNat))
      else if instrumentType = "brass" then
        pure (brassEnvelope A
          (linspaceQ 0 note.duration (pyInt (note.duration * sr)).toNat))
      else if instrumentType = "synth_pad" then
        pure (synthesizerEnvelope A "pad"
          (linspaceQ 0 note.duration (pyInt (note.duration * sr)).toNat))
      else if instrumentType = "synth_lead" then
        pure (synthesizerEnvelope A "lead"
          (linspaceQ 0 note.duration (pyInt (note.duration * sr)).toNat))
      else pure (List.replicate
        (linspaceQ 0 note.duration (pyInt (note.duration * sr)).toNat).length
        (1 : ℚ))) = .ok e := by
    split
    · rename_i hpi
      have hds := hp hpi
      have htne : linspaceQ 0 note.duration (pyInt (note.duration * sr)).toNat ≠ [] := by
        have hl := linspaceQ_length 0 note.duration (pyInt (note.duration * sr)).toNat
        intro hcon
        rw [hcon] at hl
        simp only [List.length_nil] at hl
        omega
      obtain ⟨e, he, _⟩ := pianoEnvelope_ok _ htne
      exact ⟨e, he⟩
    · split
      · exact ⟨_, rfl⟩
      · split
        · exact ⟨_, rfl⟩
        · split
          · exact ⟨_, rfl⟩
          · split
            · exact ⟨_, rfl⟩
            · exact ⟨_, rfl⟩
  obtain ⟨e, he⟩ := henv
  unfold synthesizeNote
  exact ⟨_, bind_pure_ok _ _ _ he⟩

theorem mixMelody_ok (sr : ℕ) (A : AnalyticOracle) (dr : GenDraws)
    (style : MusicStyle) (total : ℕ) (hsr : 50 ≤ sr) :
    ∀ (notes : List MusicalNote) (k cur : ℕ) (comp : List ℚ),
      (∀ note ∈ notes, 3/32 ≤ note.duration) →
      ∃ out, mixMelody sr A dr style total notes k cur comp = .ok out ∧
        out.length = comp.length := by
  intro notes
  induction notes with
  | nil => intro k cur comp _; exact ⟨comp, rfl, rfl⟩
  | cons note rest ih =>
      intro k cur comp hd
      by_cases hbr : total ≤ cur
      · exact ⟨comp, by rw [mixMelody, if_pos hbr], rfl⟩
      · have hdur : 1 ≤ pyInt (note.duration * sr) := by
          have h1 : 3/32 ≤ note.duration := hd note (by simp)
          have h2 : (50 : ℚ) ≤ sr := by exact_mod_cast hsr
          have h3 : (1 : ℚ) ≤ note.duration * sr := by nlinarith
          have h0 : (0 : ℚ) ≤ note.duration * sr := by linarith
          rw [pyInt, if_pos h0]
          exact Int.le_floor.2 (by exact_mod_cast h3)
        obtain ⟨na, hna⟩ := synthesizeNote_ok sr A (dr.melodyDetune k) note
          (chooseInstrument style (dr.instChoice k)) (fun _ => hdur)
        obtain ⟨out, hout, hlen⟩ := ih (k + 1)
          (cur + (pyInt (note.duration * sr)).toNat)
          (addInto comp cur (na.map (· * (6/10))))
          (fun x hx => hd x (List.mem_cons_of_mem _ hx))
        refine ⟨out, ?_, by rw [hlen, addInto_length]⟩
        rw [mixMelody, if_neg hbr]
        show (synthesizeNote sr A (dr.melodyDetune k) note
          (chooseInstrument style (dr.instChoice k)) >>= fun noteAudio =>
            mixMelody sr A dr style total rest (k + 1)
              (cur + (pyInt (note.duration * sr)).toNat)
              (addInto comp cur (noteAudio.map (· * (6/10))))) = _
        rw [hna, bind_ok_eq]
        exact hout

theorem mixChordPitches_ok (sr : ℕ) (A : AnalyticOracle) (detune : ℕ → ℕ → ℚ)
    (chordDuration startTime : ℚ) (startSample endSample : ℕ) :
    ∀ (freqs : List ℚ) (p : ℕ) (comp : List ℚ),
      ∃ out, mixChordPitches sr A detune chordDuration startTime startSample
        endSample freqs p comp = .ok out ∧ out.length = comp.length := by
  intro freqs
  induction freqs with
  | nil => intro p comp; exact ⟨comp, rfl, rfl⟩
  | cons freq rest ih =>
      intro p comp
      obtain ⟨ca, hca⟩ := synthesizeNote_ok sr A (detune p)
        ⟨freq, chordDuration, 3/10, startTime⟩ "synth_pad"
        (fun h => by simp at h)
      obtain ⟨out, hout, hlen⟩ := ih (p + 1)
        (addInto comp startSample
          ((ca.take (endSample - startSample)).map (· * (4/10))))
      refine ⟨out, ?_, by rw [hlen, addInto_length]⟩
      rw [mixChordPitches]
      show (synthesizeNote sr A (detune p)
        ⟨freq, chordDuration, 3/10, startTime⟩ "synth_pad" >>= fun chordAudio =>
          mixChordPitches sr A detune chordDuration startTime startSample
            endSample rest (p + 1)
            (addInto comp startSample
              ((chordAudio.take (endSample - startSample)).map (· * (4/10))))) = _
      rw [hca, bind_ok_eq]
      exact hout

theorem mixChords_ok (sr : ℕ) (A : AnalyticOracle) (dr : GenDraws)
    (style : MusicStyle) (scaleFreqs : List ℚ) (scaleName : String)
    (chordDuration : ℚ) (total : ℕ) (hfr : scaleFreqs ≠ []) :
    ∀ (prog : List ℤ) (i : ℕ) (comp : List ℚ),
      ∃ out, mixChords sr A dr style scaleFreqs scaleName chordDuration total
        prog i comp = .ok out ∧ out.length = comp.length := by
  have hflen : 0 < scaleFreqs.length := List.length_pos.2 hfr
  intro prog
  induction prog with
  | nil => intro i comp; exact ⟨comp, rfl, rfl⟩
  | cons deg rest ih =>
      intro i comp
      by_cases hbr : total ≤ (pyInt ((Nat.cast i : ℚ) * chordDuration * sr)).toNat
      · exact ⟨comp, by rw [mixChords, if_pos hbr], rfl⟩
      · have hidx : (deg % (scaleFreqs.length : ℤ)).toNat < scaleFreqs.length := by
          have hmod := Int.emod_lt_of_pos deg
            (by exact_mod_cast hflen : (0 : ℤ) < (scaleFreqs.length : ℤ))
          have hnn := Int.emod_nonneg deg
            (by positivity : ((scaleFreqs.length : ℤ)) ≠ 0)
          omega
        have hget := pyGet_ok scaleFreqs (deg % (scaleFreqs.length : ℤ)).toNat hidx
        obtain ⟨c1, hc1, hl1⟩ := mixChordPitches_ok sr A (dr.chordDetune i)
          chordDuration ((Nat.cast i : ℚ) * chordDuration)
          (pyInt ((Nat.cast i : ℚ) * chordDuration * sr)).toNat
          (min ((pyInt ((Nat.cast i : ℚ) * chordDuration * sr)).toNat +
            (pyInt (chordDuration * sr)).toNat) total)
          (createChord A (scaleFreqs.get ⟨(deg % (scaleFreqs.length : ℤ)).toNat, hidx⟩)
            (if style = MusicStyle.jazz then
              pyChoice ["major7", "minor7", "dominant7"] "major" (dr.chordType i)
            else if scaleName = "major" ∨ scaleName = "lydian" then "major"
            else "minor") 0) 0 comp
        obtain ⟨out, hout, hlen⟩ := ih (i + 1) c1
        refine ⟨out, ?_, by rw [hlen, hl1]⟩
        rw [mixChords, if_neg hbr]
        show (pyGet scaleFreqs (deg % (scaleFreqs.length : ℤ)).toNat >>=
          fun chordRoot =>
            (mixChordPitches sr A (dr.chordDetune i) chordDuration
              ((Nat.cast i : ℚ) * chordDuration)
              (pyInt ((Nat.cast i : ℚ) * chordDuration * sr)).toNat
              (min ((pyInt ((Nat.cast i : ℚ) * chordDuration * sr)).toNat +
                (pyInt (chordDuration * sr)).toNat) total)
              (createChord A chordRoot
                (if style = MusicStyle.jazz then
                  pyChoice ["major7", "minor7", "dominant7"] "major" (dr.chordType i)
                else if scaleName = "major" ∨ scaleName = "lydian" then "major"
                else "minor") 0) 0 comp >>= fun c =>
              mixChords sr A dr style scaleFreqs scaleName chordDuration total
                rest (i + 1) c)) = _
        rw [hget, bind_ok_eq, hc1, bind_ok_eq]
        exact hout

theorem foldl_max_spec (t : List ℚ) :
    ∀ x : ℚ, t.foldl max x ∈ x :: t ∧ ∀ y ∈ x :: t, y ≤ t.foldl max x := by
  induction t with
  | nil => intro x; exact ⟨by simp, by simp⟩
  | cons a t ih =>
      intro x
      obtain ⟨hmem, hbd⟩ := ih (max x a)
      constructor
      · show t.foldl max (max x a) ∈ x :: a :: t
        rcases List.mem_cons.1 hmem with h | h
        · rw [h]
          rcases max_choice x a with hc | hc <;> rw [hc] <;> simp
        · exact List.mem_cons_of_mem _ (List.mem_cons_of_mem _ h)
      · intro y hy
        show y ≤ t.foldl max (max x a)
        have hmax := hbd (max x a) (List.mem_cons_self _ _)
        rcases List.mem_cons.1 hy with h | h
        · subst h
          exact le_trans (le_max_left _ _) hmax
        · rcases List.mem_cons.1 h with h' | h'
          · subst h'
            exact le_trans (le_max_right _ _) hmax
          · exact hbd y (List.mem_cons_of_mem _ h')

theorem npMax_spec (l : List ℚ) (hl : l ≠ []) :
    ∃ m, npMax l = .ok m ∧ m ∈ l ∧ ∀ x ∈ l, x ≤ m := by
  cases l with
  | nil => simp at hl
  | cons x t =>
      obtain ⟨hmem, hbd⟩ := foldl_max_spec t x
      exact ⟨t.foldl max x, rfl, hmem, hbd⟩

theorem normalizeComposition_spec (comp : List ℚ) (hne : comp ≠ []) :
    ∃ out, normalizeComposition comp = .ok out ∧ out.length = comp.length ∧
      ∀ x ∈ out, |x| ≤ 8/10 := by
  have hmapne : comp.map (fun x => |x|) ≠ [] := by simpa using hne
  obtain ⟨m, hm, hmem, hbound⟩ := npMax_spec _ hmapne
  unfold normalizeComposition
  rw [hm, bind_ok_eq]
  by_cases hmp : 0 < m
  · rw [if_pos hmp]
    refine ⟨_, rfl, by simp, ?_⟩
    intro x hx
    obtain ⟨y, hy, rfl⟩ := List.mem_map.1 hx
    have hyb : |y| ≤ m := hbound |y| (List.mem_map_of_mem _ hy)
    rw [abs_mul, abs_div, abs_of_pos hmp,
      abs_of_nonneg (by norm_num : (0 : ℚ) ≤ 8/10)]
    have hd1 : |y| / m ≤ 1 := (div_le_one hmp).2 hyb
    nlinarith [abs_nonneg y]
  · rw [if_neg hmp]
    refine ⟨comp, rfl, rfl, ?_⟩
    intro x hx
    have h1 : |x| ≤ m := hbound |x| (List.mem_map_of_mem _ hx)
    have h2 : 0 ≤ |x| := abs_nonneg x
    have h3 : m ≤ 0 := not_lt.1 hmp
    linarith

theorem pySliceTo_mem (l : List α) (s : ℤ) (x : α) (h : x ∈ pySliceTo l s) :
    x ∈ l := by
  unfold pySliceTo at h
  split at h <;> exact List.mem_of_mem_take h

theorem pyListMul_mem (l : List α) (n : ℤ) (x : α) (h : x ∈ pyListMul l n) :
    x ∈ l := by
  unfold pyListMul at h
  obtain ⟨s, hs, hxs⟩ := List.mem_flatten.1 h
  rw [List.eq_of_mem_replicate hs] at hxs
  exact hxs

theorem generateMelody_spec (scaleFreqs rhythmPattern : List ℚ)
    (style : MusicStyle) (drm : MelodyDraws) :
    ∃ notes, generateMelody scaleFreqs rhythmPattern style drm = .ok notes ∧
      ∀ note ∈ notes, note.duration ∈ rhythmPattern := by
  have hfr : (if scaleFreqs = [] then [(440 : ℚ)] else scaleFreqs) ≠ [] := by
    split
    · simp
    · assumption
  obtain ⟨notes, hok, _, _, _, _, hdm⟩ :=
    melodyGo_spec (if scaleFreqs = [] then [(440 : ℚ)] else scaleFreqs)
      (styleStepProb style) (styleLeapMax style) drm hfr rhythmPattern 0
      (pyRandint 0
        (max 0 ((if scaleFreqs = [] then [(440 : ℚ)] else scaleFreqs).length / 2))
        drm.init) 0
  exact ⟨notes, hok, hdm⟩

/-- Main workhorse for C1-C3: on a clamped duration whose sample count is at
least 1 and a sample rate of at least 50 Hz, the assembly never raises, the
buffer has exactly `int(duration * sample_rate)` samples, and every sample
is bounded by 0.8 in absolute value. -/
theorem assembleComposition_spec (sr : ℕ) (A : AnalyticOracle) (dr : GenDraws)
    (duration : ℚ) (style : MusicStyle) (scaleName : String)
    (timeSig : TimeSignature) (hsr : 50 ≤ sr)
    (hdur : 1 ≤ pyInt (duration * sr)) :
    ∃ buf, assembleComposition sr A dr duration style scaleName timeSig = .ok buf ∧
      buf.length = (pyInt (duration * sr)).toNat ∧
      ∀ x ∈ buf, |x| ≤ 8/10 := by
  obtain ⟨pat0, hrhy, hsum, hlen1, hbd, _⟩ := generateRhythmPattern_spec timeSig
    (if style = MusicStyle.ambient then 3/10 else 7/10) dr.rhythm
  have hb : (0 : ℚ) < timeSig.value.1 := by
    have h := show 0 < timeSig.value.1 by cases timeSig <;> decide
    exact_mod_cast h
  have hpd : ¬ (pat0.sum ≤ 0) := by push_neg; linarith
  have hext : ∀ x ∈ pySliceTo (pyListMul pat0 (pyInt (duration / pat0.sum) + 1))
      (pyInt (duration * 2)), 3/32 ≤ x :=
    fun x hx => (hbd x (pyListMul_mem _ _ _ (pySliceTo_mem _ _ _ hx))).1
  obtain ⟨melodyNotes, hmel, hmeldur⟩ := generateMelody_spec
    (getScaleFrequencies A 440 scaleName 3)
    (pySliceTo (pyListMul pat0 (pyInt (duration / pat0.sum) + 1))
      (pyInt (duration * 2))) style dr.melody
  obtain ⟨res, tbl', hprog, _, _, _⟩ := generateProgression_ok
    (if style = MusicStyle.jazz then "jazz" else "classical")
    ((max 1 (melodyNotes.length / 4) : ℕ) : ℤ) dr.prog
  obtain ⟨c1, hc1, hl1⟩ := mixMelody_ok sr A dr style (pyInt (duration * sr)).toNat
    hsr melodyNotes 0 0 (List.replicate (pyInt (duration * sr)).toNat 0)
    (fun note hn => hext note.duration (hmeldur note hn))
  obtain ⟨c2, hc2, hl2⟩ := mixChords_ok sr A dr style
    (getScaleFrequencies A 440 scaleName 3) scaleName
    (duration / ((max 1 (if res = [] then [(0 : ℤ)] else res).length : ℕ) : ℚ))
    (pyInt (duration * sr)).toNat (getScaleFrequencies_ne_nil A 440 scaleName)
    (if res = [] then [(0 : ℤ)] else res) 0 c1
  have hc2len : c2.length = (pyInt (duration * sr)).toNat := by
    rw [hl2, hl1, List.length_replicate]
  by_cases heff : effectsFor style ≠ emptyEffects
  · obtain ⟨c3, hc3, hl3⟩ := addEffects_ok sr A c2 (effectsFor style) hsr
    have hc3ne : c3 ≠ [] := by
      intro hcon
      rw [hcon] at hl3
      rw [hc2len] at hl3
      simp only [List.length_nil] at hl3
      omega
    obtain ⟨out, hnorm, hnl, hnb⟩ := normalizeComposition_spec c3 hc3ne
    refine ⟨out, ?_, by rw [hnl, hl3, hc2len], hnb⟩
    unfold assembleComposition
    simp only [hrhy, bind_ok_eq, hpd, ite_false, hmel, hprog, hc1, hc2, heff,
      ite_true, hc3, hnorm]
    rw [if_pos heff]
    exact hnorm
  · have hc2ne : c2 ≠ [] := by
      intro hcon
      rw [hcon] at hc2len
      simp only [List.length_nil] at hc2len
      omega
    obtain ⟨out, hnorm, hnl, hnb⟩ := normalizeComposition_spec c2 hc2ne
    refine ⟨out, ?_, by rw [hnl, hc2len], hnb⟩
    unfold assembleComposition
    simp only [hrhy, bind_ok_eq, hpd, ite_false, hmel, hprog, hc1, hc2, heff,
      ite_true, hnorm]
    exact hnorm

theorem generateComposition_nonNum (sr : ℕ) (A : AnalyticOracle) (dr : GenDraws)
    (desc : DescArg) (s : String) (st : Option MusicStyle) :
    generateComposition sr A dr desc (.nonNum s) st = .error .typeError := rfl

theorem generateComposition_num_spec (sr : ℕ) (A : AnalyticOracle) (dr : GenDraws)
    (desc : DescArg) (d : ℚ) (st : Option MusicStyle) (hsr : 50 ≤ sr)
    (hdur : 1 ≤ pyInt (clampDuration d * sr)) :
    ∃ buf, generateComposition sr A dr desc (.num d) st = .ok buf ∧
      buf.length = (pyInt (clampDuration d * sr)).toNat ∧
      ∀ x ∈ buf, |x| ≤ 8/10 := by
  obtain ⟨buf, hok, hlen, hb⟩ := assembleComposition_spec sr A dr (clampDuration d)
    (match st with
      | some s => s
      | none => inferStyle (pyLower (sanitizeDescription desc)) dr.styleChoice)
    (inferScaleName (pyLower (sanitizeDescription desc)) dr.scaleChoice)
    (inferTimeSig (pyLower (sanitizeDescription desc)) dr.timeSigChoice) hsr hdur
  exact ⟨buf, hok, hlen, hb⟩

/-- C1 (amended): `generate_composition` raises a `TypeError` exactly for
non-numeric durations, and for numeric durations whose clamped value spans at
least one sample (`int(clamped * sample_rate) ≥ 1`, true for every duration
of at least one sample period, in particular the clamped defaults) it never
raises and returns a buffer; missing/blank descriptions behave exactly like
the default phrase, and the clamps map `≤ 0` to `1.0` s and `> 600` to
`600` s.  (As stated the claim is false: a numeric duration below one sample
period reaches the final `np.max` on an empty buffer and raises a
`ValueError`, see the counterexample.) -/
theorem C1_type_error_only_for_non_numeric (sr : ℕ) (A : AnalyticOracle)
    (dr : GenDraws) (desc : DescArg) (darg : DurArg) (st : Option MusicStyle)
    (hsr : 50 ≤ sr) :
    (∀ s, darg = .nonNum s →
      generateComposition sr A dr desc darg st = .error .typeError) ∧
    (∀ q, darg = .num q → 1 ≤ pyInt (clampDuration q * sr) →
      ∃ buf, generateComposition sr A dr desc darg st = .ok buf) ∧
    (generateComposition sr A dr .noneDesc darg st =
      generateComposition sr A dr (.strDesc "simple melody") darg st) ∧
    (generateComposition sr A dr (.strDesc "   ") darg st =
      generateComposition sr A dr (.strDesc "simple melody") darg st) ∧
    (∀ q : ℚ, q ≤ 0 → clampDuration q = 1) ∧
    (∀ q : ℚ, 600 < q → clampDuration q = 600) := by
  have hdesc1 : sanitizeDescription .noneDesc = "simple melody" := rfl
  have hdesc2 : sanitizeDescription (.strDesc "simple melody") = "simple melody" := by
    decide
  have hdesc3 : sanitizeDescription (.strDesc "   ") = "simple melody" := by decide
  refine ⟨?_, ?_, ?_, ?_, ?_, ?_⟩
  · intro s hs
    subst hs
    rfl
  · intro q hq hdur
    subst hq
    obtain ⟨buf, hok, _, _⟩ := generateComposition_num_spec sr A dr desc q st hsr hdur
    exact ⟨buf, hok⟩
  · unfold generateComposition
    rw [hdesc1, hdesc2]
  · unfold generateComposition
    rw [hdesc3, hdesc2]
  · intro q hq
    rw [clampDuration, if_pos hq]
  · intro q hq
    rw [clampDuration, if_neg (by linarith), if_pos hq]

unseal Rat.sub Rat.add Rat.mul Rat.inv in
/-- Witness for C1's amended statement: a non-numeric duration raises
`TypeError`, a numeric one (5 s at 64 Hz) returns a buffer. -/
theorem C1_type_error_only_for_non_numeric_witness :
    generateComposition 64 zeroOracle zeroGenDraws (.strDesc "x") (.nonNum "abc")
      none = .error .typeError ∧
    ∃ buf, generateComposition 64 zeroOracle zeroGenDraws (.strDesc "x") (.num 5)
      none = .ok buf := by
  have h1 := C1_type_error_only_for_non_numeric 64 zeroOracle zeroGenDraws
    (.strDesc "x") (.nonNum "abc") none (by norm_num)
  have h2 := C1_type_error_only_for_non_numeric 64 zeroOracle zeroGenDraws
    (.strDesc "x") (.num 5) none (by norm_num)
  exact ⟨h1.1 "abc" rfl, h2.2.1 5 rfl (by decide)⟩

unseal Rat.sub Rat.add Rat.mul Rat.inv in
/-- Counterexample to C1 as stated: the numeric duration `1/100000` s (below
one sample period at 44100 Hz) is clamped to itself, yields an empty buffer,
and the final `np.max(np.abs(composition))` raises a `ValueError` on the
zero-size array — a numeric duration raising, against the claim's "never
raises" for every numeric duration. -/
theorem C1_counterexample_tiny_duration :
    generateComposition 44100 zeroOracle zeroGenDraws (.strDesc "ambient pad")
      (.num (1/100000)) (some .classical) = .error .valueError := by
  decide

/-- C2 (amended): the buffer has exactly `int(clamped_duration ×
sample_rate)` samples — Python `int` truncation (floor for non-negative
values), which differs from `round` whenever the fractional part of the
product is at least one half. -/
theorem C2_buffer_length_int_truncation (sr : ℕ) (A : AnalyticOracle)
    (dr : GenDraws) (desc : DescArg) (d : ℚ) (st : Option MusicStyle)
    (hsr : 50 ≤ sr) (hdur : 1 ≤ pyInt (clampDuration d * sr)) :
    (generateComposition sr A dr desc (.num d) st).map List.length =
      .ok ((pyInt (clampDuration d * sr)).toNat) := by
  obtain ⟨buf, hok, hlen, _⟩ :=
    generateComposition_num_spec sr A dr desc d st hsr hdur
  rw [hok]
  simp only [Except.map]
  rw [hlen]

unseal Rat.sub Rat.add Rat.mul Rat.inv in
/-- Witness for C2's amended statement at 64 Hz and 1 s. -/
theorem C2_buffer_length_int_truncation_witness :
    (generateComposition 64 zeroOracle zeroGenDraws (.strDesc "x") (.num 1)
        none).map List.length = .ok ((pyInt (clampDuration 1 * 64)).toNat) :=
  C2_buffer_length_int_truncation 64 zeroOracle zeroGenDraws (.strDesc "x") 1
    none (by norm_num) (by decide)

unseal Rat.sub Rat.add Rat.mul Rat.inv in
/-- Counterexample to C2 as stated: at the default 44100 Hz the duration
`3/88200` s gives `clamped × sample_rate = 1.5`; the code's `int()` yields a
1-sample buffer while the claimed `round` gives 2. -/
theorem C2_counterexample_round_vs_int :
    (generateComposition 44100 zeroOracle zeroGenDraws (.strDesc "ambient pad")
        (.num (3/88200)) (some .classical)).map List.length = .ok 1 ∧
    (pyRound ((3/88200 : ℚ) * 44100)).toNat = 2 ∧ (1 : ℕ) ≠ 2 := by
  refine ⟨?_, by decide, by decide⟩
  obtain ⟨buf, hok, hlen, _⟩ := generateComposition_num_spec 44100 zeroOracle
    zeroGenDraws (.strDesc "ambient pad") (3/88200) (some .classical)
    (by norm_num) (by decide)
  rw [hok]
  simp only [Except.map]
  rw [hlen]
  decide

theorem foldl_max_mul (c : ℚ) (hc : 0 ≤ c) :
    ∀ (t : List ℚ) (x : ℚ),
      (t.map (fun y => y * c)).foldl max (x * c) = t.foldl max x * c := by
  intro t
  induction t with
  | nil => intro x; rfl
  | cons a t ih =>
      intro x
      show (t.map (fun y => y * c)).foldl max (max (x * c) (a * c)) =
        t.foldl max (max x a) * c
      rw [← max_mul_of_nonneg x a hc, ih (max x a)]

/-- C3 (amended): the normalization step scales so the peak is exactly 0.8
whenever the pre-normalization peak is positive; a *nonempty* all-zero
buffer is returned unchanged (the empty buffer instead raises a `ValueError`
in `np.max`); consequently every sample of every returned buffer lies in
`[-0.8, 0.8]` (in the exact-rational model there are no NaN/Inf values). -/
theorem C3_normalization_peak :
    (∀ (xs : List ℚ) (m : ℚ), npMax (xs.map (fun x => |x|)) = .ok m → 0 < m →
      normalizeComposition xs = .ok (xs.map (fun x => x / m * (8/10))) ∧
      npMax ((xs.map (fun x => x / m * (8/10))).map (fun x => |x|)) =
        .ok (8/10)) ∧
    (∀ xs : List ℚ, xs ≠ [] → (∀ x ∈ xs, x = 0) →
      normalizeComposition xs = .ok xs) ∧
    (∀ (xs out : List ℚ), normalizeComposition xs = .ok out →
      ∀ x ∈ out, |x| ≤ 8/10) ∧
    (∀ (sr : ℕ) (A : AnalyticOracle) (dr : GenDraws) (desc : DescArg) (d : ℚ)
      (st : Option MusicStyle), 50 ≤ sr → 1 ≤ pyInt (clampDuration d * sr) →
      ∃ buf, generateComposition sr A dr desc (.num d) st = .ok buf ∧
        ∀ x ∈ buf, |x| ≤ 8/10) := by
  refine ⟨?_, ?_, ?_, ?_⟩
  · intro xs m hm hmp
    constructor
    · unfold normalizeComposition
      rw [hm, bind_ok_eq, if_pos hmp]
    · cases xs with
      | nil =>
          exfalso
          simp only [List.map_nil, npMax] at hm
          cases hm
      | cons x t =>
          have hc : (0 : ℚ) ≤ (8/10) / m := by positivity
          have hm' : (t.map (fun y => |y|)).foldl max |x| = m := by
            have hrfl : npMax ((x :: t).map (fun y => |y|)) =
                .ok ((t.map (fun y => |y|)).foldl max |x|) := rfl
            rw [hrfl] at hm
            exact Except.ok.inj hm
          have hmap : ((x :: t).map (fun y => y / m * (8/10))).map (fun y => |y|) =
              ((x :: t).map (fun y => |y|)).map (fun y => y * ((8/10) / m)) := by
            simp only [List.map_map]
            refine List.map_congr_left (fun y _ => ?_)
            show |y / m * (8/10)| = |y| * ((8/10) / m)
            rw [abs_mul, abs_div, abs_of_pos hmp,
              abs_of_nonneg (by norm_num : (0 : ℚ) ≤ 8/10)]
            ring
          rw [hmap]
          have hcons : ((x :: t).map (fun y => |y|)).map (fun y => y * ((8/10) / m)) =
              (|x| * ((8/10) / m)) ::
                ((t.map (fun y => |y|)).map (fun y => y * ((8/10) / m))) := rfl
          rw [hcons]
          show Except.ok (((t.map (fun y => |y|)).map
            (fun y => y * ((8/10) / m))).foldl max (|x| * ((8/10) / m))) =
            .ok ((8 : ℚ)/10)
          rw [foldl_max_mul _ hc, hm']
          have : m * ((8/10) / m) = 8/10 := by
            field_simp
            ring
          rw [this]
  · intro xs hne hz
    obtain ⟨m, hm, hmem, _⟩ := npMax_spec (xs.map (fun x => |x|))
      (by simpa using hne)
    have hm0 : m = 0 := by
      obtain ⟨y, hy, hym⟩ := List.mem_map.1 hmem
      rw [← hym, hz y hy]
      simp
    unfold normalizeComposition
    rw [hm, bind_ok_eq, if_neg (by rw [hm0]; exact lt_irrefl 0)]
  · intro xs out h x hx
    by_cases hxe : xs = []
    · subst hxe
      simp only [normalizeComposition, List.map_nil, npMax] at h
      cases h
    · obtain ⟨out', hok', _, hb'⟩ := normalizeComposition_spec xs hxe
      rw [hok'] at h
      cases Except.ok.inj h
      exact hb' x hx
  · intro sr A dr desc d st hsr hdur
    obtain ⟨buf, hok, _, hb⟩ :=
      generateComposition_num_spec sr A dr desc d st hsr hdur
    exact ⟨buf, hok, hb⟩

unseal Rat.sub Rat.add Rat.mul Rat.inv in
/-- Witness for C3 at the two-sample buffer `[1, -2]` (peak 2, scaled to
peak exactly 0.8) and at the nonempty all-zero buffer `[0, 0]`. -/
theorem C3_normalization_peak_witness :
    (normalizeComposition [1, -2] =
      .ok (([1, -2] : List ℚ).map (fun x => x / 2 * (8/10))) ∧
    npMax ((([1, -2] : List ℚ).map (fun x => x / 2 * (8/10))).map
      (fun x => |x|)) = .ok (8/10)) ∧
    normalizeComposition [0, 0] = .ok [0, 0] := by
  refine ⟨C3_normalization_peak.1 [1, -2] 2 (by decide) (by norm_num), ?_⟩
  exact C3_normalization_peak.2.1 [0, 0] (by decide) (by decide)

unseal Rat.sub Rat.add Rat.mul Rat.inv in
/-- Counterexample to C3's all-zero clause as stated: the empty buffer is
(vacuously) all-zero, yet the normalization step raises a `ValueError` in
`np.max` instead of returning it unchanged. -/
theorem C3_counterexample_empty_buffer :
    normalizeComposition [] = .error .valueError ∧
    normalizeComposition [] ≠ .ok ([] : List ℚ) := by
  exact ⟨by decide, by decide⟩

end Sose
